import Mathlib

/-!
Verification of the BMSSP benchmark core (C and C++ reference implementations).

This file is a shallow embedding, in Lean 4, of the algorithmic core of the
bounded multi-source shortest path (BMSSP) benchmark: the CSR graph model and
its constructors, the two priority queues (the hand-rolled C binary heap in
`src/impls/c/src/main.c` and the `std::priority_queue` used by
`src/impls/cpp/src/main.cpp`), the source-initialization code, and the bounded
Dijkstra main loop shared by the two implementations.

Machine integers (`uint64_t`) are modelled as `Nat` with explicit reduction
modulo `2^64` at the one arithmetic operation the engine performs
(`nd = d + w`).  The sentinel `UINT64_MAX` is the number `2^64 - 1`.
Calls into the platform RNG (`rand()`, `std::mt19937_64`) are modelled as
oracle functions supplied as parameters: the generators' structure does not
depend on which values the oracle returns.  `std::priority_queue<Entry>` is
modelled by its standard-mandated semantics: a multiset (here a list) whose
`top`/`pop` yield the maximum under `Entry::operator<`, i.e. the
lexicographically least `(d, v)` pair.  The C binary heap is embedded
operation by operation from the source of `heap_push` / `heap_pop`.

The engine state carries ghost trace fields (`popTrace`, `candTrace`,
`freshDs`, `settled`) that record what the loop observed; they influence no
control decision and exist only so that theorems can speak about the run.
-/

/-- `2^64`, the modulus of `uint64_t` arithmetic. -/
def W64 : Nat := 2 ^ 64

/-- `UINT64_MAX` / `ULLONG_MAX`, the "infinity" sentinel of both programs. -/
def INF : Nat := 2 ^ 64 - 1

/-- A queue entry `(d, v)`: tentative distance and node id
(C: `typedef struct { uint64_t d; uint32_t v; } Entry;`). -/
structure Entry where
  d : Nat
  v : Nat
deriving DecidableEq, Repr

instance : Inhabited Entry := ⟨⟨0, 0⟩⟩

/-- A CSR edge record (C: `typedef struct { uint32_t to; uint64_t w; } Edge;`).
The source field `to` is a Lean keyword, so it is called `dst` here. -/
structure Edge where
  dst : Nat
  w : Nat
deriving DecidableEq, Repr

instance : Inhabited Edge := ⟨⟨0, 0⟩⟩

/-- The CSR graph (C: `typedef struct { uint32_t* head; Edge* edges; size_t n, m; }`,
C++: `struct Graph{ vector<U32> head; vector<Edge> edges; U32 n; size_t m; }`).
`head` has length `n+1` in every constructed graph; `m` is `edges.length`. -/
structure Graph where
  n : Nat
  head : List Nat
  edges : List Edge
deriving Repr

/-- The out-edge block of node `v`: `edges[head[v] .. head[v+1])`, exactly the
index range both main loops scan (`for(ei=head[v]; ei<head[v+1]; ei++)`). -/
def outEdges (g : Graph) (v : Nat) : List Edge :=
  (g.edges.drop (g.head.getD v 0)).take (g.head.getD (v + 1) 0 - g.head.getD v 0)

/-- The engine state of one trial: the distance array (as a total function,
`INF`-initialized), the priority queue contents, the boundary accumulator
`bPrime`, plus ghost trace fields.  `settled` lists the nodes that were
settled (the C counter `popped` is its length), `popTrace` records every
entry ever popped, `candTrace` every relaxation candidate `nd` ever computed,
and `freshDs` the `d` of every pop that passed the staleness check. -/
structure EState where
  dist : Nat → Nat
  pq : List Entry
  bPrime : Nat
  settled : List Nat
  popTrace : List Entry
  candTrace : List Nat
  freshDs : List Nat

/-- The state both implementations build before reading the sources:
all distances `INF`, empty queue, `b_prime = INF`, empty traces. -/
def emptyState : EState :=
  { dist := fun _ => INF, pq := [], bPrime := INF, settled := [],
    popTrace := [], candTrace := [], freshDs := [] }

/-- One edge relaxation, the shared inner-loop body of both `main` loops:
`nd = d + w` (in `uint64_t`, hence mod `2^64`); if `nd < dist[to] && nd < B`
update `dist[to]` and push `(nd, to)`; else if `nd >= B && nd < b_prime`
record `nd` as a boundary candidate.  The queue-push operation is a
parameter so that the same body serves the C heap and the C++
`priority_queue`. -/
def scanEdge (push : List Entry → Entry → List Entry) (B d : Nat)
    (st : EState) (e : Edge) : EState :=
  let nd := (d + e.w) % W64
  let st1 := { st with candTrace := st.candTrace ++ [nd] }
  if nd < st1.dist e.dst ∧ nd < B then
    { st1 with dist := fun i => if i = e.dst then nd else st1.dist i,
               pq := push st1.pq ⟨nd, e.dst⟩ }
  else if B ≤ nd ∧ nd < st1.bPrime then
    { st1 with bPrime := nd }
  else st1

/-- Scanning the whole out-edge block of a settled node, left to right. -/
def scanEdges (push : List Entry → Entry → List Entry) (B d : Nat)
    (st : EState) (es : List Edge) : EState :=
  es.foldl (scanEdge push B d) st

/-- Insertion into the C++ `std::priority_queue<Entry>`: a multiset gains
one element; the heap layout is internal to the standard library. -/
def cppPush (q : List Entry) (x : Entry) : List Entry := x :: q

/-- The accumulator step of the boundary value: the source's
`if(nd>=B && nd<b_prime) b_prime=nd;`, as a function of the previous
`b_prime` and the candidate. -/
def bUpd (B b x : Nat) : Nat := if B ≤ x ∧ x < b then x else b

/-- Extraction from the C++ `std::priority_queue<Entry>`: `top`/`pop` remove
one occurrence of the greatest element under `Entry::operator<`
(`if(d!=o.d) return d>o.d; return v>o.v;`), i.e. the lexicographically least
`(d, v)`.  Modelled directly on the list of queued entries. -/
def popMin : List Entry → Option (Entry × List Entry)
  | [] => none
  | e :: es =>
    match popMin es with
    | none => some (e, [])
    | some (m, rest) =>
      if e.d < m.d ∨ (e.d = m.d ∧ e.v ≤ m.v) then some (e, m :: rest)
      else some (m, e :: rest)

/-- One step of the C++ source initialization: the body of
`for(auto [s,d0]: src){ if(d0<B){ dist[s]=d0; pq.push({d0,s}); } }`. -/
def cppInitStep (B : Nat) (st : EState) (sd : Nat × Nat) : EState :=
  if sd.2 < B then
    { st with dist := fun i => if i = sd.1 then sd.2 else st.dist i,
              pq := ⟨sd.2, sd.1⟩ :: st.pq }
  else st

/-- Source initialization of the C++ implementation. -/
def cppInit (srcs : List (Nat × Nat)) (B : Nat) : EState :=
  srcs.foldl (cppInitStep B) emptyState

/-- The main loop of the C++ implementation, structurally recursive on a fuel
parameter; `none` means the fuel ran out before the loop terminated.
Each iteration: pop the least entry; drop it if stale (`d != dist[v]`);
if `d >= B` set `b_prime = d` and break; otherwise settle `v` and scan its
out-edge block. -/
def cppRun (g : Graph) (B : Nat) : Nat → EState → Option EState
  | 0, st => if st.pq.isEmpty then some st else none
  | fuel + 1, st =>
    match popMin st.pq with
    | none => some st
    | some (e, rest) =>
      let st1 := { st with pq := rest, popTrace := st.popTrace ++ [e] }
      if e.d ≠ st1.dist e.v then cppRun g B fuel st1
      else if B ≤ e.d then
        some { st1 with bPrime := e.d, freshDs := st1.freshDs ++ [e.d] }
      else
        cppRun g B fuel
          (scanEdges cppPush B e.d
            { st1 with settled := st1.settled ++ [e.v],
                       freshDs := st1.freshDs ++ [e.d] }
            (outEdges g e.v))

/-- Costed reachability from the active source set: `ReachFrom g srcs B v d`
holds when some source `(s, d0)` with `d0 < B` starts a directed path to `v`
whose accumulated cost (initial distance plus edge weights, in unbounded
naturals) is `d`.  The set `{d | ReachFrom g srcs B v d}` is the set of
true costs of bounded-source walks to `v`. -/
inductive ReachFrom (g : Graph) (srcs : List (Nat × Nat)) (B : Nat) :
    Nat → Nat → Prop where
  | source : ∀ s d0, (s, d0) ∈ srcs → d0 < B → ReachFrom g srcs B s d0
  | step : ∀ v d e, ReachFrom g srcs B v d → e ∈ outEdges g v →
      ReachFrom g srcs B e.dst (d + e.w)

/-- The sift-up loop of the C `heap_push`: starting from hole index `i`
(the freshly appended slot), while `i > 0` and the parent's `d` exceeds
`e.d`, move the parent down into the hole and continue from the parent;
finally store `e` in the hole
(`while(i){ p=(i-1)/2; if(data[p].d<=e.d) break; data[i]=data[p]; i=p; } data[i]=e;`). -/
def siftUpF : Nat → List Entry → Nat → Entry → List Entry
  | 0, a, i, e => a.set i e
  | fuel + 1, a, i, e =>
    if i = 0 then a.set 0 e
    else
      let p := (i - 1) / 2
      if (a.getD p default).d ≤ e.d then a.set i e
      else siftUpF fuel (a.set i (a.getD p default)) p e

/-- Entry point of the sift-up loop.  The hole index strictly decreases on
every iteration, so `i` steps of fuel always suffice; at fuel `0` the hole
index is `0` and the two base cases coincide. -/
def siftUp (a : List Entry) (i : Nat) (e : Entry) : List Entry :=
  siftUpF i a i e

/-- The C `heap_push`: append a new slot at index `n` and sift up. -/
def hPush (a : List Entry) (e : Entry) : List Entry :=
  siftUp (a ++ [e]) a.length e

/-- The sift-down loop of the C `heap_pop`: hole at `i`, value `x` to place;
pick the child `m` with smaller `d` (the right child only on a strictly
smaller `d`); if `data[m].d >= x.d` stop and store `x`, else move `data[m]`
up into the hole and continue from `m`. -/
def siftDownF : Nat → List Entry → Nat → Entry → List Entry
  | 0, a, i, x => a.set i x
  | fuel + 1, a, i, x =>
    let l := 2 * i + 1
    if l < a.length then
      let r := l + 1
      let m := if r < a.length ∧ (a.getD r default).d < (a.getD l default).d then r else l
      if x.d ≤ (a.getD m default).d then a.set i x
      else siftDownF fuel (a.set i (a.getD m default)) m x
    else a.set i x

/-- Entry point of the sift-down loop.  The hole index at least doubles on
every iteration while staying below `a.length`, so `a.length` steps of fuel
always suffice; when the fuel base case is reachable the hole has no
children and the two base cases coincide. -/
def siftDown (a : List Entry) (i : Nat) (x : Entry) : List Entry :=
  siftDownF a.length a i x

/-- The C `heap_pop`: on an empty heap report failure (`return 0`); otherwise
return the root, move the last element into the root hole and sift it down
(`*out=data[0]; x=data[--n]; ...sift-down...; data[0..]=x;`).  When the heap
had a single element the surviving region is empty (the final `data[i]=x`
writes past the live region). -/
def hPop : List Entry → Option (Entry × List Entry)
  | [] => none
  | top :: rest =>
    let b := (top :: rest).dropLast
    let x := (top :: rest).getLastD default
    some (top, if b.isEmpty then [] else siftDown b 0 x)

/-- One step of the C source initialization
(`for(i=0;i<k;i++){ s=sources[i]; dist[s]=0; heap_push(&h,(Entry){0,s}); }`):
the initial distance read from a sources file is ignored, every source gets
distance `0` and is pushed unconditionally (the `d0 < B` filter of the C++
implementation is absent). -/
def cInitStep (st : EState) (sd : Nat × Nat) : EState :=
  { st with dist := fun i => if i = sd.1 then 0 else st.dist i,
            pq := hPush st.pq ⟨0, sd.1⟩ }

/-- See `cInit`. -/
def cInit (srcs : List (Nat × Nat)) : EState :=
  srcs.foldl cInitStep emptyState

/-- The main loop of the C implementation: identical control flow to
`cppRun`, but popping from and pushing onto the hand-rolled binary heap. -/
def cRun (g : Graph) (B : Nat) : Nat → EState → Option EState
  | 0, st => if st.pq.isEmpty then some st else none
  | fuel + 1, st =>
    match hPop st.pq with
    | none => some st
    | some (e, rest) =>
      let st1 := { st with pq := rest, popTrace := st.popTrace ++ [e] }
      if e.d ≠ st1.dist e.v then cRun g B fuel st1
      else if B ≤ e.d then
        some { st1 with bPrime := e.d, freshDs := st1.freshDs ++ [e.d] }
      else
        cRun g B fuel
          (scanEdges hPush B e.d
            { st1 with settled := st1.settled ++ [e.v],
                       freshDs := st1.freshDs ++ [e.d] }
            (outEdges g e.v))

/-- The binary-heap ordering property of the C heap, in parent form:
every non-root live slot's `d` is at least its parent's `d`. -/
def IsHeapD (a : List Entry) : Prop :=
  ∀ j, j < a.length → 0 < j →
    (a.getD ((j - 1) / 2) default).d ≤ (a.getD j default).d

instance (a : List Entry) : Decidable (IsHeapD a) := by
  unfold IsHeapD
  infer_instance

/-- CSR assembly from per-node adjacency lists, the C++ `from_adj`:
edges are concatenated node by node and `head[u+1]` records the running
edge count after node `u`'s block.  The C generators build the same shape
inline (`push_edge` then `g.head[u+1]=(uint32_t)g.m`). -/
def from_adj (adj : List (List Edge)) : Graph :=
  { n := adj.length,
    head := (List.range (adj.length + 1)).map
      (fun u => ((adj.take u).map List.length).sum),
    edges := adj.flatten }

/-- The out-edge list of grid node `u = r*cols + c`: up to four directed
edges (down, right, up, left, in source order), each with an independently
drawn weight `rand()%maxw + 1`.  The RNG draw for direction `dir` at node
`u` is abstracted as the oracle value `wOf u dir`. -/
def gridAdjAt (rows cols maxw : Nat) (wOf : Nat → Nat → Nat) (u : Nat) :
    List Edge :=
  let r := u / cols
  let c := u % cols
  (if r + 1 < rows then [Edge.mk ((r + 1) * cols + c) (wOf u 0 % maxw + 1)] else []) ++
  (if c + 1 < cols then [Edge.mk (r * cols + (c + 1)) (wOf u 1 % maxw + 1)] else []) ++
  (if 0 < r then [Edge.mk ((r - 1) * cols + c) (wOf u 2 % maxw + 1)] else []) ++
  (if 0 < c then [Edge.mk (r * cols + (c - 1)) (wOf u 3 % maxw + 1)] else [])

/-- The lattice generator `make_grid`. -/
def make_grid (rows cols maxw : Nat) (wOf : Nat → Nat → Nat) : Graph :=
  from_adj ((List.range (rows * cols)).map (gridAdjAt rows cols maxw wOf))

/-- The Erdős–Rényi generator `make_er`: for every ordered pair `(u, v)`,
`u ≠ v`, include edge `u → v` when the abstracted coin `coin u v` (the
source's `rand()/RAND_MAX < p` draw) comes up true, with weight
`rand()%maxw + 1` abstracted as `wOf u v % maxw + 1`. -/
def make_er (n maxw : Nat) (coin : Nat → Nat → Bool) (wOf : Nat → Nat → Nat) :
    Graph :=
  from_adj ((List.range n).map (fun u =>
    (List.range n).filterMap (fun v =>
      if v ≠ u ∧ coin u v then some (Edge.mk v (wOf u v % maxw + 1)) else none)))

/-- One attachment node of `make_ba`: node `u` draws `mEach` targets from the
`ends` multiset (`ends[rand()%ends_len]`, abstracted as index oracle
`pick u j`), or `rand()%u` when `ends` is empty; after each edge both the
target and `u` are appended to `ends`. -/
def baAttachNode (mEach maxw : Nat) (pick wOf : Nat → Nat → Nat) (u : Nat)
    (ends : List Nat) : List Edge × List Nat :=
  (List.range mEach).foldl
    (fun acc j =>
      let t := if acc.2.isEmpty then (if u = 0 then 0 else pick u j % u)
               else acc.2.getD (pick u j % acc.2.length) 0
      (acc.1 ++ [Edge.mk t (wOf u j % maxw + 1)], acc.2 ++ [t, u]))
    ([], ends)

/-- The preferential-attachment generator `make_ba`: a directed clique over
the first `start = min (max m0 1) n` nodes (each clique edge also pushes its
source onto `ends`), then each later node attaches `mEach` edges via
`baAttachNode`. -/
def make_ba (n m0 mEach maxw : Nat) (pick wOf : Nat → Nat → Nat) : Graph :=
  let start := min (max m0 1) n
  let cliqueAdj := (List.range start).map (fun u =>
    (List.range start).filterMap (fun v =>
      if v ≠ u then some (Edge.mk v (wOf u v % maxw + 1)) else none))
  let ends0 := (List.range start).foldl
    (fun es u => es ++ List.replicate (start - 1) u) []
  let rest := (List.range (n - start)).foldl
    (fun (acc : List (List Edge) × List Nat) k =>
      let u := start + k
      let r := baAttachNode mEach maxw pick wOf u acc.2
      (acc.1 ++ [r.1], r.2))
    ([], ends0)
  from_adj (cliqueAdj ++ rest.1)

/-- The C++ external loader `from_edge_list`: records with in-range source
and target (`u<n && v<n`) are grouped by source node, preserving input
order inside each group; out-of-range records are silently dropped; the
weight is stored as read (no positivity check). -/
def from_edge_list (n : Nat) (elist : List (Nat × Nat × Nat)) : Graph :=
  from_adj ((List.range n).map (fun u =>
    elist.filterMap (fun t =>
      if t.1 = u ∧ t.2.1 < n then some (Edge.mk t.2.1 t.2.2) else none)))

def fixHeadsGo (prev : Nat) : List Nat → List Nat
  | [] => []
  | x :: xs => max prev x :: fixHeadsGo (max prev x) xs

/-- The final patch pass of the C loader `read_graph_file`
(`for(i=1;i<=n;i++){ if(head[i]<head[i-1]) head[i]=head[i-1]; }`):
replace each entry by the running maximum, keeping the first entry. -/
def fixHeads : List Nat → List Nat
  | [] => []
  | x :: xs => x :: fixHeadsGo x xs

/-- The head-building step of the C loader: after appending record number
`m'` with source `u`, set `head[u+1] = m'` when `u+1 <= n` and `head[u+1]`
is still smaller. -/
def cLoaderHeads (n : Nat) (recs : List (Nat × Nat × Nat)) : List Nat :=
  (recs.foldl
    (fun (acc : List Nat × Nat) t =>
      let m' := acc.2 + 1
      (if t.1 + 1 ≤ n ∧ acc.1.getD (t.1 + 1) 0 < m' then acc.1.set (t.1 + 1) m'
       else acc.1, m'))
    (List.replicate (n + 1) 0, 0)).1

/-- The C external loader `read_graph_file` (after a successful parse of the
header `n m` and of `m` records `u v w`): all edges are appended in input
order regardless of their source node, `head` is patched per record and then
forced to be non-decreasing.  Neither weights nor node ids are validated. -/
def read_graph_file (n : Nat) (recs : List (Nat × Nat × Nat)) : Graph :=
  { n := n,
    edges := recs.map (fun t => Edge.mk t.2.1 t.2.2),
    head := fixHeads (cLoaderHeads n recs) }

def readSourcesRecs : Nat → List Nat → Option (List Nat)
  | 0, _ => some []
  | k + 1, s :: _d0 :: rest => (readSourcesRecs k rest).map (s :: ·)
  | _ + 1, _ => none

/-- The C `read_sources_file` on an already-tokenized stream of numbers:
read `k`, then `k` records `s d0`; each record's initial distance `d0` is
parsed and then discarded, and the node id `s` is stored with no range
check of any kind (the function does not even receive the node count). -/
def read_sources_file : List Nat → Option (List Nat)
  | [] => none
  | k :: rest => readSourcesRecs k rest

def cppReadSourcesRecs : Nat → List Nat → Option (List (Nat × Nat))
  | 0, _ => some []
  | k + 1, s :: d0 :: rest => (cppReadSourcesRecs k rest).map ((s, d0) :: ·)
  | _ + 1, _ => none

/-- The C++ sources-file reading loop in `main`: read `k`, then `k` pairs
`(s, d0)`; initial distances are kept, but node ids are again accepted
without any range check. -/
def cpp_read_sources : List Nat → Option (List (Nat × Nat))
  | [] => none
  | k :: rest => cppReadSourcesRecs k rest

def pickSourcesF (n k : Nat) (rnd : Nat → Nat) :
    Nat → Nat → List Nat → Option (List Nat)
  | 0, _, acc => if k ≤ acc.length then some acc else none
  | fuel + 1, t, acc =>
    if k ≤ acc.length then some acc
    else
      let s := rnd t % n
      if s ∈ acc then pickSourcesF n k rnd fuel (t + 1) acc
      else pickSourcesF n k rnd fuel (t + 1) (acc ++ [s])

/-- The C `pick_sources` (`while(c<k){ s=rand()%n; if(!used[s]){ used[s]=1;
out[c++]=s; } }`), with the RNG abstracted as the stream `rnd` and the
unbounded `while` loop given explicit fuel: `none` means the loop was still
running when the fuel ran out.  The C++ `pick_sources` has the same loop. -/
def pick_sources (n k : Nat) (rnd : Nat → Nat) (fuel : Nat) : Option (List Nat) :=
  pickSourcesF n k rnd fuel 0 []

/-- The loop invariant of the bounded Dijkstra engine (C++ variant):
every recorded finite distance is below `B` and realized by a
bounded-source walk; every queued entry is below `B` and realized; settled
distances are lower bounds for everything still queued; settled nodes are
fully relaxed below the bound; and every reached, unsettled node has a
live (non-stale) queue entry. -/
structure EngineInv (g : Graph) (srcs : List (Nat × Nat)) (B : Nat)
    (st : EState) : Prop where
  distReach : ∀ v, st.dist v ≠ INF →
    st.dist v < B ∧ ReachFrom g srcs B v (st.dist v)
  pqBound : ∀ e ∈ st.pq, e.d < B ∧ ReachFrom g srcs B e.v e.d
  settledMin : ∀ v ∈ st.settled, ∀ e ∈ st.pq, st.dist v ≤ e.d
  settledRelaxed : ∀ v ∈ st.settled, st.dist v ≠ INF ∧
    ∀ ed ∈ outEdges g v, st.dist v + ed.w < B →
      st.dist ed.dst ≤ st.dist v + ed.w
  live : ∀ v, st.dist v ≠ INF → v ∉ st.settled →
    Entry.mk (st.dist v) v ∈ st.pq

/-- The bound invariant of the final distance array: every entry is the
sentinel or strictly below `B`. -/
def DistOk (B : Nat) (st : EState) : Prop :=
  ∀ v, st.dist v = INF ∨ st.dist v < B

/-- Concrete input: a two-node graph with the single edge `0 → 1` of
weight 1. -/
def exLine : Graph := { n := 2, head := [0, 1, 1], edges := [⟨1, 1⟩] }

/-- Concrete input: `0 → 1` of weight 1, `1 → 2` of weight `2^64 - 1`;
the relaxation `1 + (2^64 - 1)` wraps to `0` in `uint64_t`. -/
def exWrap : Graph :=
  { n := 3, head := [0, 1, 2, 2], edges := [⟨1, 1⟩, ⟨2, 2 ^ 64 - 1⟩] }

/-- Concrete input: a single edge `0 → 1` whose weight is the sentinel
value `2^64 - 1` itself. -/
def exSent : Graph := { n := 2, head := [0, 1, 1], edges := [⟨1, 2 ^ 64 - 1⟩] }

-- ===================================================================
-- Theorems.  General lemmas come first, then one theorem per claim
-- (plus its witness or counterexample where required).
-- ===================================================================

theorem popMin_none {l : List Entry} (h : popMin l = none) : l = [] := by
  cases l with
  | nil => rfl
  | cons e es =>
    simp only [popMin] at h
    rcases hes : popMin es with _ | ⟨m, rest⟩ <;> simp [hes] at h
    split at h <;> simp at h

theorem popMin_perm {l : List Entry} :
    ∀ {m : Entry} {rest : List Entry},
      popMin l = some (m, rest) → l.Perm (m :: rest) := by
  induction l with
  | nil => intro m rest h; simp [popMin] at h
  | cons e es ih =>
    intro m rest h
    rcases hes : popMin es with _ | ⟨m1, rest1⟩
    · simp only [popMin, hes] at h
      simp only [Option.some.injEq, Prod.mk.injEq] at h
      obtain ⟨h1, h2⟩ := h
      subst h1
      subst h2
      rw [popMin_none hes]
    · simp only [popMin, hes] at h
      have hperm := ih hes
      by_cases hcond : e.d < m1.d ∨ (e.d = m1.d ∧ e.v ≤ m1.v)
      · rw [if_pos hcond] at h
        simp only [Option.some.injEq, Prod.mk.injEq] at h
        obtain ⟨h1, h2⟩ := h
        subst h1
        subst h2
        exact hperm.cons e
      · rw [if_neg hcond] at h
        simp only [Option.some.injEq, Prod.mk.injEq] at h
        obtain ⟨h1, h2⟩ := h
        subst h1
        subst h2
        exact (hperm.cons e).trans (List.Perm.swap m1 e rest1)

theorem popMin_min {l : List Entry} :
    ∀ {m : Entry} {rest : List Entry}, popMin l = some (m, rest) →
      ∀ x ∈ l, m.d < x.d ∨ (m.d = x.d ∧ m.v ≤ x.v) := by
  induction l with
  | nil => intro m rest h; simp [popMin] at h
  | cons e es ih =>
    intro m rest h
    rcases hes : popMin es with _ | ⟨m1, rest1⟩
    · simp only [popMin, hes] at h
      simp only [Option.some.injEq, Prod.mk.injEq] at h
      obtain ⟨h1, h2⟩ := h
      subst h1
      rw [popMin_none hes]
      intro x hx
      simp only [List.mem_singleton] at hx
      subst hx
      exact Or.inr ⟨rfl, Nat.le_refl _⟩
    · simp only [popMin, hes] at h
      have hmin := ih hes
      by_cases hcond : e.d < m1.d ∨ (e.d = m1.d ∧ e.v ≤ m1.v)
      · rw [if_pos hcond] at h
        simp only [Option.some.injEq, Prod.mk.injEq] at h
        obtain ⟨h1, h2⟩ := h
        subst h1
        intro x hx
        rcases List.mem_cons.mp hx with hx | hx
        · subst hx
          exact Or.inr ⟨rfl, Nat.le_refl _⟩
        · have hx2 := hmin x hx
          rcases hcond with hc | ⟨hc1, hc2⟩ <;>
            rcases hx2 with hx2 | ⟨hx21, hx22⟩ <;> omega
      · rw [if_neg hcond] at h
        simp only [Option.some.injEq, Prod.mk.injEq] at h
        obtain ⟨h1, h2⟩ := h
        subst h1
        intro x hx
        rcases List.mem_cons.mp hx with hx | hx
        · subst hx
          push_neg at hcond
          obtain ⟨hc1, hc2⟩ := hcond
          rcases Nat.lt_trichotomy m1.d x.d with hlt | heq | hgt
          · exact Or.inl hlt
          · have hv := hc2 heq.symm
            exact Or.inr ⟨heq, by omega⟩
          · omega
        · exact hmin x hx

theorem popMin_isSome {l : List Entry} (h : l ≠ []) : (popMin l).isSome := by
  rcases hl : popMin l with _ | p
  · exact absurd (popMin_none hl) h
  · rfl

theorem nodup_bound_length {n : Nat} {acc : List Nat} (hnd : acc.Nodup)
    (hb : ∀ x ∈ acc, x < n) : acc.length ≤ n := by
  calc acc.length = acc.toFinset.card := (List.toFinset_card_of_nodup hnd).symm
    _ ≤ (Finset.range n).card := by
        refine Finset.card_le_card ?_
        intro x hx
        simp only [List.mem_toFinset] at hx
        simpa using hb x hx
    _ = n := Finset.card_range n

theorem pickSourcesF_stuck {n k : Nat} (rnd : Nat → Nat) (hnk : n < k)
    (hn : 0 < n) :
    ∀ fuel t acc, acc.Nodup → (∀ x ∈ acc, x < n) →
      pickSourcesF n k rnd fuel t acc = none := by
  intro fuel
  induction fuel with
  | zero =>
    intro t acc hnd hb
    have hlen := nodup_bound_length hnd hb
    simp only [pickSourcesF]
    rw [if_neg (by omega)]
  | succ fuel ih =>
    intro t acc hnd hb
    have hlen := nodup_bound_length hnd hb
    simp only [pickSourcesF]
    rw [if_neg (by omega)]
    by_cases hs : rnd t % n ∈ acc
    · rw [if_pos hs]
      exact ih (t + 1) acc hnd hb
    · rw [if_neg hs]
      refine ih (t + 1) (acc ++ [rnd t % n]) ?_ ?_
      · refine List.nodup_append.mpr ⟨hnd, List.nodup_singleton _, ?_⟩
        intro x hx hx2
        simp only [List.mem_singleton] at hx2
        subst hx2
        exact hs hx
      · intro x hx
        rcases List.mem_append.mp hx with hx | hx
        · exact hb x hx
        · simp only [List.mem_singleton] at hx
          subst hx
          exact Nat.mod_lt _ hn

theorem reach_exWrap {v d : Nat} (h : ReachFrom exWrap [(0, 0)] 3 v d) :
    (v = 0 ∧ d = 0) ∨ (v = 1 ∧ d = 1) ∨ (v = 2 ∧ d = 2 ^ 64) := by
  induction h with
  | source s d0 hmem hlt =>
    simp only [List.mem_singleton, Prod.mk.injEq] at hmem
    exact Or.inl ⟨hmem.1, hmem.2⟩
  | step v d e hr hmem ih =>
    rcases ih with ⟨hv, hd⟩ | ⟨hv, hd⟩ | ⟨hv, hd⟩ <;> subst hv <;> subst hd
    · have hout : outEdges exWrap 0 = [⟨1, 1⟩] := rfl
      rw [hout] at hmem
      simp only [List.mem_singleton] at hmem
      subst hmem
      exact Or.inr (Or.inl ⟨rfl, rfl⟩)
    · have hout : outEdges exWrap 1 = [⟨2, 2 ^ 64 - 1⟩] := rfl
      rw [hout] at hmem
      simp only [List.mem_singleton] at hmem
      subst hmem
      refine Or.inr (Or.inr ⟨rfl, ?_⟩)
      norm_num
    · have hout : outEdges exWrap 2 = [] := rfl
      rw [hout] at hmem
      simp at hmem

/-- Counterexample to C1: on the graph `0 →(1) 1 →(2^64-1) 2` with source
`(0, 0)` and bound `B = 3`, the run terminates with `distance[2] = 0 < B`
because `1 + (2^64 - 1)` wraps to `0` in `uint64_t`; but no bounded-source
walk to node 2 has true (unbounded) cost `0`, so `distance[2]` is not the
true shortest-path distance even though it is below the bound. -/
theorem C1_counterexample :
    ((cppRun exWrap 3 10 (cppInit [(0, 0)] 3)).map (fun st => st.dist 2)
        = some 0)
    ∧ (0 : Nat) < 3
    ∧ ¬ ReachFrom exWrap [(0, 0)] 3 2 0 := by
  refine ⟨rfl, by norm_num, fun h => ?_⟩
  rcases reach_exWrap h with ⟨h1, _⟩ | ⟨h1, _⟩ | ⟨_, h2⟩
  · exact absurd h1 (by norm_num)
  · exact absurd h1 (by norm_num)
  · exact absurd h2.symm (by norm_num)

/-- Counterexample to C9: on the wraparound graph the distances of the pops
that pass the staleness check are `0, 1, 0`, which is not non-decreasing
(the relaxation `1 + (2^64 - 1)` wraps to `0` and is pushed after the pop
of `1`). -/
theorem C9_counterexample :
    ((cppRun exWrap 3 10 (cppInit [(0, 0)] 3)).map (fun st => st.freshDs)
        = some [0, 1, 0])
    ∧ ¬ List.Chain' (fun a b => a ≤ b) [0, 1, 0] := by
  refine ⟨rfl, fun h => ?_⟩
  have h1 := (List.chain'_cons.mp h).2
  have h2 := (List.chain'_cons.mp h1).1
  omega

/-- Counterexample to C2: with the single edge `0 → 1` of weight
`2^64 - 1` and `B = 1`, the relaxation candidate `nd = 2^64 - 1` satisfies
`nd ≥ B`, yet the final `b_prime` still equals the sentinel (the update
`nd < b_prime` fails because the candidate equals the sentinel value), so
"`bprime` is the sentinel exactly when no popped entry or candidate reached
`B`" is false at this input. -/
theorem C2_counterexample :
    ((cppRun exSent 1 10 (cppInit [(0, 0)] 1)).map
        (fun st => (st.bPrime, st.popTrace.map Entry.d, st.candTrace))
      = some (INF, [0], [INF]))
    ∧ (1 : Nat) ≤ INF := by
  refine ⟨rfl, by norm_num [INF]⟩

/-- Counterexample to C4: the C implementation sets every source distance to
`0` and pushes it regardless of `B`, so after a run with `B = 0` the final
array has `distance[0] = 0`, which is neither the sentinel nor below the
bound. -/
theorem C4_counterexample :
    ((cRun exLine 0 5 (cInit [(0, 0)])).map (fun st => st.dist 0) = some 0)
    ∧ ¬ ((0 : Nat) = INF ∨ (0 : Nat) < 0) := by
  exact ⟨rfl, by decide⟩

/-- Counterexample to C8: in the C++ implementation a source with
`d0 = 0` is not pushed when `B = 0` (the init filter is `d0 < B`), so the
loop never pops anything, `bprime` keeps the sentinel instead of `0`,
and no entry is ever popped. -/
theorem C8_counterexample :
    ((cppRun exLine 0 5 (cppInit [(0, 0)] 0)).map
        (fun st => (st.bPrime, st.popTrace, st.settled)) = some (INF, [], []))
    ∧ INF ≠ 0 := by
  exact ⟨rfl, by decide⟩

/-- Counterexample to C7: the C heap compares entries by `d` alone, so after
pushing `(1,5)` then `(1,3)` — two entries of equal distance — `heap_pop`
returns the entry with node id `5` first, not the smaller id `3`. -/
theorem C7_counterexample :
    (hPush (hPush [] ⟨1, 5⟩) ⟨1, 3⟩ = [⟨1, 5⟩, ⟨1, 3⟩])
    ∧ (hPop [⟨1, 5⟩, ⟨1, 3⟩] = some (⟨1, 5⟩, [⟨1, 3⟩]))
    ∧ (Entry.mk 1 5).d = (Entry.mk 1 3).d
    ∧ ¬ (Entry.mk 1 5).v ≤ (Entry.mk 1 3).v := by
  exact ⟨rfl, rfl, rfl, by decide⟩

/-- C3, evaluated at the failing input: for the source pair `(s, d0) =
(0, 5)` and bound `B = 3` the C initialization ignores `d0` entirely: it
sets `distance[0] = 0` (not the sentinel) and pushes `(0, 0)` even though
`d0 = 5 ≥ B = 3`; the claim requires `distance[0]` to stay at the sentinel
with nothing pushed. -/
theorem C3_theorem :
    ((cInit [(0, 5)]).dist 0 = 0)
    ∧ ((cInit [(0, 5)]).pq = [⟨0, 0⟩])
    ∧ ¬ ((5 : Nat) < 3)
    ∧ (cInit [(0, 5)]).dist 0 ≠ INF := by
  exact ⟨rfl, rfl, by decide, by decide⟩

/-- C5, evaluated at the failing inputs: the C sources reader accepts node
id `5` (e.g. for a 2-node graph) without any range check and discards its
`d0`; the C++ reading loop likewise accepts it; and `pick_sources` with
`k = 2 > n = 1` never terminates (it reports nothing for any amount of
fuel) instead of failing with an input-format error. -/
theorem C5_theorem :
    (read_sources_file [1, 5, 0] = some [5])
    ∧ (cpp_read_sources [1, 5, 0] = some [(5, 0)])
    ∧ (∀ rnd fuel, pick_sources 1 2 rnd fuel = none) := by
  refine ⟨rfl, rfl, fun rnd fuel => ?_⟩
  exact pickSourcesF_stuck rnd (by norm_num) (by norm_num) fuel 0 []
    List.nodup_nil (by simp)

/-- Counterexample to C6: the C++ external loader `from_edge_list` accepts
the weight-`0` record `(0, 1, 0)` unchanged, violating "every edge weight is
strictly greater than 0"; the C loader `read_graph_file` on the unsorted
list `[(1,0,1), (0,1,1)]` produces offsets `[0,2,2]`, so node 0's block
contains node 1's edge (the block is not "exactly the out-edges whose
source is u"); and on `[(5,0,1)]` with `n = 1` it leaves `offsets[n] = 0`
while the edge count is `1`. -/
theorem C6_counterexample :
    ((from_edge_list 2 [(0, 1, 0)]).edges = [⟨1, 0⟩])
    ∧ ¬ ((0 : Nat) < (Edge.mk 1 0).w)
    ∧ (outEdges (read_graph_file 2 [(1, 0, 1), (0, 1, 1)]) 0
        = [⟨0, 1⟩, ⟨1, 1⟩])
    ∧ ([Edge.mk 0 1, Edge.mk 1 1] ≠ [Edge.mk 1 1])
    ∧ ((read_graph_file 1 [(5, 0, 1)]).head.getD 1 0 = 0)
    ∧ ((read_graph_file 1 [(5, 0, 1)]).edges.length = 1)
    ∧ (0 : Nat) ≠ 1 := by
  exact ⟨rfl, by decide, rfl, by decide, rfl, rfl, by decide⟩

theorem scanEdge_dist_le (push : List Entry → Entry → List Entry) (B d : Nat)
    (st : EState) (e : Edge) (v : Nat) :
    (scanEdge push B d st e).dist v ≤ st.dist v := by
  unfold scanEdge
  dsimp only
  split
  · rename_i h
    by_cases hv : v = e.dst
    · subst hv
      simp only [if_pos rfl]
      exact Nat.le_of_lt h.1
    · simp only [if_neg hv]
      exact Nat.le_refl _
  · split <;> exact Nat.le_refl _

theorem scanEdges_dist_le (push : List Entry → Entry → List Entry) (B d : Nat) :
    ∀ (es : List Edge) (st : EState) (v : Nat),
      (scanEdges push B d st es).dist v ≤ st.dist v := by
  intro es
  induction es with
  | nil => intro st v; exact Nat.le_refl _
  | cons e es ih =>
    intro st v
    exact Nat.le_trans (ih (scanEdge push B d st e) v) (scanEdge_dist_le push B d st e v)

theorem scanEdge_ghost (push : List Entry → Entry → List Entry) (B d : Nat)
    (st : EState) (e : Edge) :
    (scanEdge push B d st e).settled = st.settled
    ∧ (scanEdge push B d st e).popTrace = st.popTrace
    ∧ (scanEdge push B d st e).freshDs = st.freshDs := by
  unfold scanEdge
  dsimp only
  split
  · exact ⟨rfl, rfl, rfl⟩
  · split <;> exact ⟨rfl, rfl, rfl⟩

theorem scanEdges_ghost (push : List Entry → Entry → List Entry) (B d : Nat) :
    ∀ (es : List Edge) (st : EState),
      (scanEdges push B d st es).settled = st.settled
      ∧ (scanEdges push B d st es).popTrace = st.popTrace
      ∧ (scanEdges push B d st es).freshDs = st.freshDs := by
  intro es
  induction es with
  | nil => intro st; exact ⟨rfl, rfl, rfl⟩
  | cons e es ih =>
    intro st
    have h1 := ih (scanEdge push B d st e)
    have h2 := scanEdge_ghost push B d st e
    exact ⟨h1.1.trans h2.1, h1.2.1.trans h2.2.1, h1.2.2.trans h2.2.2⟩

theorem scanEdge_bPrime (push : List Entry → Entry → List Entry) (B d : Nat)
    (st : EState) (e : Edge) :
    (scanEdge push B d st e).bPrime = bUpd B st.bPrime ((d + e.w) % W64)
    ∧ (scanEdge push B d st e).candTrace = st.candTrace ++ [(d + e.w) % W64] := by
  unfold scanEdge bUpd
  dsimp only
  split
  · rename_i h
    refine ⟨?_, rfl⟩
    rw [if_neg (by omega)]
  · split
    · exact ⟨rfl, rfl⟩
    · exact ⟨rfl, rfl⟩

theorem scanEdges_nil (push : List Entry → Entry → List Entry) (B d : Nat)
    (st : EState) : scanEdges push B d st [] = st := rfl

theorem scanEdges_cons (push : List Entry → Entry → List Entry) (B d : Nat)
    (st : EState) (e : Edge) (es : List Edge) :
    scanEdges push B d st (e :: es)
      = scanEdges push B d (scanEdge push B d st e) es := rfl

theorem scanEdges_bPrime (push : List Entry → Entry → List Entry) (B d : Nat) :
    ∀ (es : List Edge) (st : EState),
      (scanEdges push B d st es).bPrime
        = (es.map (fun e => (d + e.w) % W64)).foldl (bUpd B) st.bPrime
      ∧ (scanEdges push B d st es).candTrace
        = st.candTrace ++ es.map (fun e => (d + e.w) % W64) := by
  intro es
  induction es with
  | nil => intro st; exact ⟨rfl, by simp [scanEdges_nil]⟩
  | cons e es ih =>
    intro st
    have h2 := scanEdge_bPrime push B d st e
    rw [scanEdges_cons]
    constructor
    · rw [(ih _).1, h2.1]
      simp only [List.map_cons, List.foldl_cons]
    · rw [(ih _).2, h2.2]
      simp only [List.map_cons, List.append_assoc, List.singleton_append]

theorem scanEdge_dist_changed (push : List Entry → Entry → List Entry)
    (B d : Nat) (st : EState) (e : Edge) (v : Nat)
    (hch : (scanEdge push B d st e).dist v ≠ st.dist v) :
    (scanEdge push B d st e).dist v < st.dist v
    ∧ v = e.dst ∧ (scanEdge push B d st e).dist v = (d + e.w) % W64
    ∧ (d + e.w) % W64 < B := by
  revert hch
  unfold scanEdge
  dsimp only
  split
  · rename_i h
    by_cases hv : v = e.dst
    · subst hv
      dsimp only
      rw [if_pos rfl]
      intro _
      exact ⟨h.1, rfl, rfl, h.2⟩
    · dsimp only
      rw [if_neg hv]
      intro hc
      exact absurd rfl hc
  · split <;> (intro hc; exact absurd rfl hc)

theorem scanEdges_dist_changed (push : List Entry → Entry → List Entry)
    (B d : Nat) :
    ∀ (es : List Edge) (st : EState) (v : Nat),
      (scanEdges push B d st es).dist v ≠ st.dist v →
      (scanEdges push B d st es).dist v < st.dist v
      ∧ (∃ ed ∈ es, v = ed.dst
          ∧ (scanEdges push B d st es).dist v = (d + ed.w) % W64)
      ∧ (scanEdges push B d st es).dist v < B := by
  intro es
  induction es with
  | nil => intro st v hch; exact absurd rfl hch
  | cons e es ih =>
    intro st v hch
    rw [scanEdges_cons] at hch ⊢
    by_cases h1 : (scanEdges push B d (scanEdge push B d st e) es).dist v
        = (scanEdge push B d st e).dist v
    · rw [h1] at hch ⊢
      have h2 := scanEdge_dist_changed push B d st e v hch
      exact ⟨h2.1, ⟨e, List.mem_cons_self e es, h2.2.1, h2.2.2.1⟩,
        h2.2.2.1 ▸ h2.2.2.2⟩
    · have h2 := ih (scanEdge push B d st e) v h1
      refine ⟨Nat.lt_of_lt_of_le h2.1 (scanEdge_dist_le push B d st e v), ?_, h2.2.2⟩
      obtain ⟨ed, hmem, hdst, heq⟩ := h2.2.1
      exact ⟨ed, List.mem_cons_of_mem e hmem, hdst, heq⟩

theorem scanEdge_relax (push : List Entry → Entry → List Entry)
    (B d : Nat) (st : EState) (e : Edge) (hB : (d + e.w) % W64 < B) :
    (scanEdge push B d st e).dist e.dst ≤ (d + e.w) % W64 := by
  unfold scanEdge
  dsimp only
  split
  · dsimp only
    rw [if_pos rfl]
  · rename_i h
    rw [Classical.not_and_iff_or_not_not] at h
    rcases h with h | h
    · split <;> dsimp only <;> omega
    · exact absurd hB h

theorem scanEdges_relax (push : List Entry → Entry → List Entry) (B d : Nat) :
    ∀ (es : List Edge) (st : EState), ∀ ed ∈ es,
      (d + ed.w) % W64 < B →
      (scanEdges push B d st es).dist ed.dst ≤ (d + ed.w) % W64 := by
  intro es
  induction es with
  | nil => intro st ed hmem; exact absurd hmem (List.not_mem_nil ed)
  | cons e es ih =>
    intro st ed hmem hB
    rw [scanEdges_cons]
    rcases List.mem_cons.mp hmem with hmem | hmem
    · subst hmem
      exact Nat.le_trans (scanEdges_dist_le push B d es _ _)
        (scanEdge_relax push B d st ed hB)
    · exact ih (scanEdge push B d st e) ed hmem hB

theorem scanEdge_pq_cpp (B d : Nat) (st : EState) (e : Edge) :
    ((scanEdge cppPush B d st e).pq = st.pq
      ∧ ∀ u, (scanEdge cppPush B d st e).dist u = st.dist u)
    ∨ ((scanEdge cppPush B d st e).pq
          = Entry.mk ((d + e.w) % W64) e.dst :: st.pq
        ∧ (d + e.w) % W64 < B
        ∧ (scanEdge cppPush B d st e).dist e.dst = (d + e.w) % W64) := by
  unfold scanEdge cppPush
  dsimp only
  split
  · rename_i h
    exact Or.inr ⟨rfl, h.2, by dsimp only; rw [if_pos rfl]⟩
  · split
    · exact Or.inl ⟨rfl, fun u => rfl⟩
    · exact Or.inl ⟨rfl, fun u => rfl⟩

theorem scanEdges_pq_cpp (B d : Nat) :
    ∀ (es : List Edge) (st : EState),
      ∃ ps : List Entry,
        (scanEdges cppPush B d st es).pq = ps ++ st.pq
        ∧ ∀ p ∈ ps, p.d < B
            ∧ ∃ ed ∈ es, p.v = ed.dst ∧ p.d = (d + ed.w) % W64 := by
  intro es
  induction es with
  | nil =>
    intro st
    exact ⟨[], rfl, fun p hp => absurd hp (List.not_mem_nil p)⟩
  | cons e es ih =>
    intro st
    rw [scanEdges_cons]
    obtain ⟨ps, hps, hprop⟩ := ih (scanEdge cppPush B d st e)
    rcases scanEdge_pq_cpp B d st e with ⟨hpq, _⟩ | ⟨hpq, hB, _⟩
    · refine ⟨ps, by rw [hps, hpq], fun p hp => ?_⟩
      obtain ⟨h1, ed, hmem, hdst, heq⟩ := hprop p hp
      exact ⟨h1, ed, List.mem_cons_of_mem e hmem, hdst, heq⟩
    · refine ⟨ps ++ [Entry.mk ((d + e.w) % W64) e.dst],
        by rw [hps, hpq, List.append_assoc, List.singleton_append],
        fun p hp => ?_⟩
      rcases List.mem_append.mp hp with hp | hp
      · obtain ⟨h1, ed, hmem, hdst, heq⟩ := hprop p hp
        exact ⟨h1, ed, List.mem_cons_of_mem e hmem, hdst, heq⟩
      · simp only [List.mem_singleton] at hp
        subst hp
        exact ⟨hB, e, List.mem_cons_self e es, rfl, rfl⟩

theorem scanEdges_live_cpp (B d : Nat) :
    ∀ (es : List Edge) (st : EState) (v : Nat),
      (scanEdges cppPush B d st es).dist v ≠ st.dist v →
      Entry.mk ((scanEdges cppPush B d st es).dist v) v
        ∈ (scanEdges cppPush B d st es).pq := by
  intro es
  induction es with
  | nil => intro st v hch; exact absurd rfl hch
  | cons e es ih =>
    intro st v hch
    rw [scanEdges_cons] at hch ⊢
    by_cases h1 : (scanEdges cppPush B d (scanEdge cppPush B d st e) es).dist v
        = (scanEdge cppPush B d st e).dist v
    · rw [h1] at hch ⊢
      have h2 := scanEdge_dist_changed cppPush B d st e v hch
      rcases scanEdge_pq_cpp B d st e with ⟨_, hdist⟩ | ⟨hpq, _, hdd⟩
      · exact absurd (hdist v) hch
      · obtain ⟨_, hdst, hval, _⟩ := h2
        subst hdst
        obtain ⟨ps, hps, _⟩ := scanEdges_pq_cpp B d es (scanEdge cppPush B d st e)
        rw [hps, hpq]
        rw [hval]
        exact List.mem_append_right ps (List.mem_cons_self _ _)
    · exact ih (scanEdge cppPush B d st e) v h1

theorem settle_inv {g : Graph} {srcs : List (Nat × Nat)} {B : Nat}
    (Hw : ∀ v, ∀ ed ∈ outEdges g v, B + ed.w ≤ W64) (HB : B ≤ INF)
    {st : EState} (hInv : EngineInv g srcs B st)
    {e : Entry} {rest : List Entry}
    (hpop : popMin st.pq = some (e, rest))
    (hfr : e.d = st.dist e.v) :
    EngineInv g srcs B
      (scanEdges cppPush B e.d
        { st with pq := rest, popTrace := st.popTrace ++ [e],
                  settled := st.settled ++ [e.v],
                  freshDs := st.freshDs ++ [e.d] }
        (outEdges g e.v)) := by
  have hperm := popMin_perm hpop
  have hmemE : e ∈ st.pq := hperm.mem_iff.mpr (List.mem_cons_self e rest)
  have hd0B : e.d < B := (hInv.pqBound e hmemE).1
  have hreach : ReachFrom g srcs B e.v e.d := (hInv.pqBound e hmemE).2
  have hrest : ∀ x ∈ rest, x ∈ st.pq := fun x hx =>
    hperm.mem_iff.mpr (List.mem_cons_of_mem e hx)
  have hmin : ∀ x ∈ st.pq, e.d ≤ x.d := by
    intro x hx
    rcases popMin_min hpop x hx with h | ⟨h, _⟩ <;> omega
  have hnw : ∀ ed ∈ outEdges g e.v, (e.d + ed.w) % W64 = e.d + ed.w := by
    intro ed hed
    apply Nat.mod_eq_of_lt
    have := Hw e.v ed hed
    omega
  obtain ⟨ps, hps, hpsp⟩ := scanEdges_pq_cpp B e.d (outEdges g e.v)
    { st with pq := rest, popTrace := st.popTrace ++ [e],
              settled := st.settled ++ [e.v], freshDs := st.freshDs ++ [e.d] }
  have hghost := scanEdges_ghost cppPush B e.d (outEdges g e.v)
    { st with pq := rest, popTrace := st.popTrace ++ [e],
              settled := st.settled ++ [e.v], freshDs := st.freshDs ++ [e.d] }
  have hmono : ∀ v, (scanEdges cppPush B e.d
      { st with pq := rest, popTrace := st.popTrace ++ [e],
                settled := st.settled ++ [e.v], freshDs := st.freshDs ++ [e.d] }
      (outEdges g e.v)).dist v ≤ st.dist v :=
    fun v => scanEdges_dist_le cppPush B e.d (outEdges g e.v) _ v
  have hstab : ∀ v, v ∈ st.settled ∨ v = e.v → (scanEdges cppPush B e.d
      { st with pq := rest, popTrace := st.popTrace ++ [e],
                settled := st.settled ++ [e.v], freshDs := st.freshDs ++ [e.d] }
      (outEdges g e.v)).dist v = st.dist v := by
    intro v hv
    by_contra hne
    obtain ⟨hlt, ⟨ed, hed, hdst, hval⟩, hBv⟩ :=
      scanEdges_dist_changed cppPush B e.d (outEdges g e.v) _ v hne
    dsimp only at hlt
    rw [hnw ed hed] at hval
    rcases hv with hv | hv
    · have h1 := hInv.settledMin v hv e hmemE
      omega
    · subst hv
      rw [← hfr] at hlt
      omega
  constructor
  · -- distReach
    intro v hvINF
    by_cases hch : (scanEdges cppPush B e.d
        { st with pq := rest, popTrace := st.popTrace ++ [e],
                  settled := st.settled ++ [e.v], freshDs := st.freshDs ++ [e.d] }
        (outEdges g e.v)).dist v = st.dist v
    · rw [hch] at hvINF ⊢
      exact hInv.distReach v hvINF
    · obtain ⟨hlt, ⟨ed, hed, hdst, hval⟩, hBv⟩ :=
        scanEdges_dist_changed cppPush B e.d (outEdges g e.v) _ v hch
      refine ⟨hBv, ?_⟩
      rw [hval, hnw ed hed]
      subst hdst
      exact ReachFrom.step e.v e.d ed hreach hed
  · -- pqBound
    intro x hx
    rw [hps] at hx
    rcases List.mem_append.mp hx with hx | hx
    · obtain ⟨hxB, ed, hed, hdst, hval⟩ := hpsp x hx
      refine ⟨hxB, ?_⟩
      rw [hval, hnw ed hed]
      rw [hdst]
      exact ReachFrom.step e.v e.d ed hreach hed
    · exact hInv.pqBound x (hrest x hx)
  · -- settledMin
    intro v hv x hx
    rw [hghost.1] at hv
    rw [hps] at hx
    have hv2 : v ∈ st.settled ∨ v = e.v := by
      rcases List.mem_append.mp hv with hv | hv
      · exact Or.inl hv
      · simp only [List.mem_singleton] at hv
        exact Or.inr hv
    rw [hstab v hv2]
    rcases hv2 with hv2 | hv2
    · rcases List.mem_append.mp hx with hx | hx
      · obtain ⟨hxB, ed, hed, hdst, hval⟩ := hpsp x hx
        have h1 := hInv.settledMin v hv2 e hmemE
        rw [hval, hnw ed hed]
        omega
      · exact hInv.settledMin v hv2 x (hrest x hx)
    · subst hv2
      rw [← hfr]
      rcases List.mem_append.mp hx with hx | hx
      · obtain ⟨hxB, ed, hed, hdst, hval⟩ := hpsp x hx
        rw [hval, hnw ed hed]
        omega
      · exact hmin x (hrest x hx)
  · -- settledRelaxed
    intro v hv
    rw [hghost.1] at hv
    have hv2 : v ∈ st.settled ∨ v = e.v := by
      rcases List.mem_append.mp hv with hv | hv
      · exact Or.inl hv
      · simp only [List.mem_singleton] at hv
        exact Or.inr hv
    rw [hstab v hv2]
    rcases hv2 with hv2 | hv2
    · obtain ⟨hINF, hrel⟩ := hInv.settledRelaxed v hv2
      refine ⟨hINF, ?_⟩
      intro ed hed hlt
      exact Nat.le_trans (hmono ed.dst) (hrel ed hed hlt)
    · subst hv2
      rw [← hfr]
      constructor
      · unfold INF at HB ⊢
        omega
      · intro ed hed hlt
        have h2 := scanEdges_relax cppPush B e.d (outEdges g e.v)
          { st with pq := rest, popTrace := st.popTrace ++ [e],
                    settled := st.settled ++ [e.v],
                    freshDs := st.freshDs ++ [e.d] }
          ed hed (by rw [hnw ed hed]; exact hlt)
        rw [hnw ed hed] at h2
        exact h2
  · -- live
    intro v hvINF hvns
    rw [hghost.1] at hvns
    have hv1 : v ∉ st.settled := fun hc => hvns (List.mem_append_left _ hc)
    have hv2 : v ≠ e.v := fun hc =>
      hvns (List.mem_append_right _ (by simp [hc]))
    by_cases hch : (scanEdges cppPush B e.d
        { st with pq := rest, popTrace := st.popTrace ++ [e],
                  settled := st.settled ++ [e.v], freshDs := st.freshDs ++ [e.d] }
        (outEdges g e.v)).dist v = st.dist v
    · rw [hch] at hvINF ⊢
      have hlive := hInv.live v hvINF hv1
      have hmem2 : Entry.mk (st.dist v) v ∈ e :: rest := hperm.mem_iff.mp hlive
      rcases List.mem_cons.mp hmem2 with hmem2 | hmem2
      · exact absurd (congrArg Entry.v hmem2) hv2
      · rw [hps]
        exact List.mem_append_right ps hmem2
    · exact scanEdges_live_cpp B e.d (outEdges g e.v) _ v hch

theorem stale_inv {g : Graph} {srcs : List (Nat × Nat)} {B : Nat}
    {st : EState} (hInv : EngineInv g srcs B st)
    {e : Entry} {rest : List Entry}
    (hpop : popMin st.pq = some (e, rest))
    (hst : e.d ≠ st.dist e.v) :
    EngineInv g srcs B { st with pq := rest, popTrace := st.popTrace ++ [e] } := by
  have hperm := popMin_perm hpop
  have hrest : ∀ x ∈ rest, x ∈ st.pq := fun x hx =>
    hperm.mem_iff.mpr (List.mem_cons_of_mem e hx)
  constructor
  · exact hInv.distReach
  · exact fun x hx => hInv.pqBound x (hrest x hx)
  · exact fun v hv x hx => hInv.settledMin v hv x (hrest x hx)
  · exact hInv.settledRelaxed
  · intro v hvINF hvns
    have hlive := hInv.live v hvINF hvns
    have hmem2 : Entry.mk (st.dist v) v ∈ e :: rest := hperm.mem_iff.mp hlive
    rcases List.mem_cons.mp hmem2 with hmem2 | hmem2
    · exfalso
      apply hst
      rw [← hmem2]
    · exact hmem2

theorem cppRun_inv {g : Graph} {srcs : List (Nat × Nat)} {B : Nat}
    (Hw : ∀ v, ∀ ed ∈ outEdges g v, B + ed.w ≤ W64) (HB : B ≤ INF) :
    ∀ (fuel : Nat) (st final : EState), EngineInv g srcs B st →
      cppRun g B fuel st = some final →
      EngineInv g srcs B final ∧ final.pq = [] := by
  intro fuel
  induction fuel with
  | zero =>
    intro st final hInv hrun
    simp only [cppRun] at hrun
    by_cases he : st.pq.isEmpty
    · rw [if_pos he] at hrun
      obtain rfl := Option.some.inj hrun
      exact ⟨hInv, List.isEmpty_iff.mp he⟩
    · rw [if_neg he] at hrun
      exact absurd hrun (by simp)
  | succ fuel ih =>
    intro st final hInv hrun
    rcases hpop : popMin st.pq with _ | ⟨e, rest⟩
    · simp only [cppRun, hpop] at hrun
      obtain rfl := Option.some.inj hrun
      exact ⟨hInv, popMin_none hpop⟩
    · simp only [cppRun, hpop] at hrun
      by_cases hst : e.d = st.dist e.v
      · rw [if_neg (fun hc => hc hst)] at hrun
        by_cases hB2 : B ≤ e.d
        · exfalso
          have hmemE : e ∈ st.pq :=
            (popMin_perm hpop).mem_iff.mpr (List.mem_cons_self e rest)
          have := (hInv.pqBound e hmemE).1
          omega
        · rw [if_neg hB2] at hrun
          exact ih _ final (settle_inv Hw HB hInv hpop hst) hrun
      · rw [if_pos hst] at hrun
        exact ih _ final (stale_inv hInv hpop hst) hrun

theorem cppInitStep_props {g : Graph} {srcs : List (Nat × Nat)} {B : Nat} :
    ∀ (l : List (Nat × Nat)) (st : EState), (∀ sd ∈ l, sd ∈ srcs) →
      ((∀ v, st.dist v ≠ INF → st.dist v < B ∧ ReachFrom g srcs B v (st.dist v))
        ∧ (∀ x ∈ st.pq, x.d < B ∧ ReachFrom g srcs B x.v x.d)
        ∧ (∀ v, st.dist v ≠ INF → Entry.mk (st.dist v) v ∈ st.pq)
        ∧ st.settled = []) →
      ((∀ v, (l.foldl (cppInitStep B) st).dist v ≠ INF →
          (l.foldl (cppInitStep B) st).dist v < B
          ∧ ReachFrom g srcs B v ((l.foldl (cppInitStep B) st).dist v))
        ∧ (∀ x ∈ (l.foldl (cppInitStep B) st).pq,
            x.d < B ∧ ReachFrom g srcs B x.v x.d)
        ∧ (∀ v, (l.foldl (cppInitStep B) st).dist v ≠ INF →
            Entry.mk ((l.foldl (cppInitStep B) st).dist v) v
              ∈ (l.foldl (cppInitStep B) st).pq)
        ∧ (l.foldl (cppInitStep B) st).settled = []) := by
  intro l
  induction l with
  | nil => intro st _ h; exact h
  | cons sd l ih =>
    intro st hmem ⟨h1, h2, h3, h4⟩
    simp only [List.foldl_cons]
    refine ih (cppInitStep B st sd) (fun x hx => hmem x (List.mem_cons_of_mem sd hx)) ?_
    have hsd : sd ∈ srcs := hmem sd (List.mem_cons_self sd l)
    unfold cppInitStep
    by_cases hB : sd.2 < B
    · rw [if_pos hB]
      have hsrc : ReachFrom g srcs B sd.1 sd.2 :=
        ReachFrom.source sd.1 sd.2 (by rwa [Prod.mk.eta]) hB
      refine ⟨?_, ?_, ?_, h4⟩
      · intro v hv
        dsimp only at hv ⊢
        by_cases hveq : v = sd.1
        · subst hveq
          rw [if_pos rfl] at hv ⊢
          exact ⟨hB, hsrc⟩
        · rw [if_neg hveq] at hv ⊢
          exact h1 v hv
      · intro x hx
        dsimp only at hx
        rcases List.mem_cons.mp hx with hx | hx
        · subst hx
          exact ⟨hB, hsrc⟩
        · exact h2 x hx
      · intro v hv
        dsimp only at hv ⊢
        by_cases hveq : v = sd.1
        · subst hveq
          rw [if_pos rfl]
          exact List.mem_cons_self _ _
        · rw [if_neg hveq] at hv ⊢
          exact List.mem_cons_of_mem _ (h3 v hv)
    · rw [if_neg hB]
      exact ⟨h1, h2, h3, h4⟩

theorem cppInit_inv (g : Graph) (srcs : List (Nat × Nat)) (B : Nat) :
    EngineInv g srcs B (cppInit srcs B) := by
  have h := @cppInitStep_props g srcs B srcs emptyState
    (fun sd hsd => hsd)
    ⟨fun v hv => absurd rfl hv, fun x hx => absurd hx (List.not_mem_nil x),
     fun v hv => absurd rfl hv, rfl⟩
  obtain ⟨h1, h2, h3, h4⟩ := h
  have h4' : (cppInit srcs B).settled = [] := h4
  refine ⟨h1, h2, ?_, ?_, ?_⟩
  · intro v hv
    rw [h4'] at hv
    exact absurd hv (List.not_mem_nil v)
  · intro v hv
    rw [h4'] at hv
    exact absurd hv (List.not_mem_nil v)
  · intro v hv hns
    exact h3 v hv

theorem cppInitFold_notin (B : Nat) :
    ∀ (l : List (Nat × Nat)) (st : EState) (x : Nat),
      x ∉ l.map Prod.fst → (l.foldl (cppInitStep B) st).dist x = st.dist x := by
  intro l
  induction l with
  | nil => intro st x _; rfl
  | cons sd l ih =>
    intro st x hx
    simp only [List.map_cons, List.mem_cons] at hx
    push_neg at hx
    simp only [List.foldl_cons]
    rw [ih _ x hx.2]
    unfold cppInitStep
    by_cases hB : sd.2 < B
    · rw [if_pos hB]
      dsimp only
      rw [if_neg hx.1]
    · rw [if_neg hB]

theorem cppInitFold_dist (B : Nat) :
    ∀ (l : List (Nat × Nat)) (st : EState), (l.map Prod.fst).Nodup →
      ∀ s d0, (s, d0) ∈ l → d0 < B →
        (l.foldl (cppInitStep B) st).dist s = d0 := by
  intro l
  induction l with
  | nil => intro st _ s d0 hmem; exact absurd hmem (List.not_mem_nil _)
  | cons sd l ih =>
    intro st hnd s d0 hmem hB
    simp only [List.map_cons, List.nodup_cons] at hnd
    simp only [List.foldl_cons]
    rcases List.mem_cons.mp hmem with hmem | hmem
    · have hs : s = sd.1 := by rw [← hmem]
      have hd : d0 = sd.2 := by rw [← hmem]
      subst hs
      subst hd
      rw [cppInitFold_notin B l _ sd.1 hnd.1]
      unfold cppInitStep
      rw [if_pos hB]
      dsimp only
      rw [if_pos rfl]
    · exact ih _ hnd.2 s d0 hmem hB

/-- `cppInit` records exactly the supplied initial distance of each active
source, provided source node ids are unique (spec section 3: "node ids must
be unique"). -/
theorem cppInit_dist {srcs : List (Nat × Nat)} {B : Nat}
    (hnd : (srcs.map Prod.fst).Nodup) {s d0 : Nat}
    (hmem : (s, d0) ∈ srcs) (hB : d0 < B) :
    (cppInit srcs B).dist s = d0 :=
  cppInitFold_dist B srcs emptyState hnd s d0 hmem hB

theorem cppRun_dist_le {g : Graph} {B : Nat} :
    ∀ (fuel : Nat) (st final : EState), cppRun g B fuel st = some final →
      ∀ v, final.dist v ≤ st.dist v := by
  intro fuel
  induction fuel with
  | zero =>
    intro st final hrun v
    simp only [cppRun] at hrun
    by_cases he : st.pq.isEmpty
    · rw [if_pos he] at hrun
      obtain rfl := Option.some.inj hrun
      exact Nat.le_refl _
    · rw [if_neg he] at hrun
      exact absurd hrun (by simp)
  | succ fuel ih =>
    intro st final hrun v
    rcases hpop : popMin st.pq with _ | ⟨e, rest⟩
    · simp only [cppRun, hpop] at hrun
      obtain rfl := Option.some.inj hrun
      exact Nat.le_refl _
    · simp only [cppRun, hpop] at hrun
      by_cases hst : e.d ≠ st.dist e.v
      · rw [if_pos hst] at hrun
        exact ih _ final hrun v
      · rw [if_neg hst] at hrun
        by_cases hB2 : B ≤ e.d
        · rw [if_pos hB2] at hrun
          obtain rfl := Option.some.inj hrun
          exact Nat.le_refl _
        · rw [if_neg hB2] at hrun
          exact Nat.le_trans (ih _ final hrun v)
            (scanEdges_dist_le cppPush B e.d (outEdges g e.v) _ v)

theorem outEdges_subset (g : Graph) (v : Nat) :
    ∀ ed ∈ outEdges g v, ed ∈ g.edges := by
  intro ed hed
  unfold outEdges at hed
  exact List.mem_of_mem_drop (List.mem_of_mem_take hed)

/-- C1 (amended): for every positive-weight graph, every valid source set
(unique node ids, per the data model), and every bound `B` (a `uint64`
value), provided no relaxation can overflow (`B + w ≤ 2^64` for every edge
weight `w`), when the C++ Engine's main loop terminates every node `v` with
`distance[v] < B` has `distance[v]` equal to the true shortest-path
distance from the active source set to `v` — it is the least cost of any
bounded-source walk reaching `v`. -/
theorem C1_theorem {g : Graph} {srcs : List (Nat × Nat)} {B fuel : Nat}
    {final : EState}
    (_Hpos : ∀ e ∈ g.edges, 0 < e.w)
    (Hw : ∀ e ∈ g.edges, B + e.w ≤ W64)
    (HB : B ≤ INF)
    (Hnd : (srcs.map Prod.fst).Nodup)
    (Hterm : cppRun g B fuel (cppInit srcs B) = some final) :
    ∀ v, final.dist v < B →
      IsLeast { d | ReachFrom g srcs B v d } (final.dist v) := by
  have HwOut : ∀ v, ∀ ed ∈ outEdges g v, B + ed.w ≤ W64 :=
    fun v ed hed => Hw ed (outEdges_subset g v ed hed)
  obtain ⟨hInvF, hpqF⟩ :=
    cppRun_inv HwOut HB fuel _ final (cppInit_inv g srcs B) Hterm
  intro v hvB
  have hvINF : final.dist v ≠ INF := by omega
  have hlb : ∀ vv ddd, ReachFrom g srcs B vv ddd → ddd < B →
      final.dist vv ≤ ddd := by
    intro vv ddd hreach
    induction hreach with
    | source s d0 hmem hdB =>
      intro _
      have h1 := cppRun_dist_le fuel _ final Hterm s
      rwa [cppInit_dist Hnd hmem hdB] at h1
    | step vv2 dd2 ed hr hed ih2 =>
      intro hB2
      have h3 := ih2 (by omega)
      have hvINF2 : final.dist vv2 ≠ INF := by omega
      have hset : vv2 ∈ final.settled := by
        by_contra hns
        have hl := hInvF.live vv2 hvINF2 hns
        rw [hpqF] at hl
        exact absurd hl (List.not_mem_nil _)
      have hrel := (hInvF.settledRelaxed vv2 hset).2 ed hed (by omega)
      omega
  refine ⟨(hInvF.distReach v hvINF).2, ?_⟩
  intro dd hdd
  by_cases hddB : dd < B
  · exact hlb v dd hdd hddB
  · omega

/-- Witness for C1 at a concrete input: the two-node graph `0 →(1) 1`,
source `(0, 0)`, `B = 10`; the run terminates and `distance[1] = 1` is the
least bounded-source walk cost reaching node 1. -/
theorem C1_witness :
    IsLeast { d | ReachFrom exLine [(0, 0)] 10 1 d }
      (((cppRun exLine 10 10 (cppInit [(0, 0)] 10)).getD emptyState).dist 1) := by
  have h := @C1_theorem exLine [(0, 0)] 10 10
    ((cppRun exLine 10 10 (cppInit [(0, 0)] 10)).getD emptyState)
    (by decide) (by decide) (by decide) (by decide) rfl
  exact h 1 (by decide)

theorem chain_concat {l : List Nat} {a : Nat}
    (hc : List.Chain' (fun x y => x ≤ y) l)
    (hl : ∀ last ∈ l.getLast?, last ≤ a) :
    List.Chain' (fun x y => x ≤ y) (l ++ [a]) := by
  rw [List.chain'_append]
  refine ⟨hc, List.chain'_singleton a, ?_⟩
  intro x hx y hy
  simp only [List.head?_cons, Option.mem_def, Option.some.injEq] at hy
  subst hy
  exact hl x hx

theorem cppRun_mono {g : Graph} {B : Nat}
    (Hw : ∀ v, ∀ ed ∈ outEdges g v, B + ed.w ≤ W64) :
    ∀ (fuel : Nat) (st final : EState),
      List.Chain' (fun x y => x ≤ y) st.freshDs →
      (∀ x ∈ st.pq, ∀ last ∈ st.freshDs.getLast?, last ≤ x.d) →
      cppRun g B fuel st = some final →
      List.Chain' (fun x y => x ≤ y) final.freshDs := by
  intro fuel
  induction fuel with
  | zero =>
    intro st final hc hb hrun
    simp only [cppRun] at hrun
    by_cases he : st.pq.isEmpty
    · rw [if_pos he] at hrun
      obtain rfl := Option.some.inj hrun
      exact hc
    · rw [if_neg he] at hrun
      exact absurd hrun (by simp)
  | succ fuel ih =>
    intro st final hc hb hrun
    rcases hpop : popMin st.pq with _ | ⟨e, rest⟩
    · simp only [cppRun, hpop] at hrun
      obtain rfl := Option.some.inj hrun
      exact hc
    · simp only [cppRun, hpop] at hrun
      have hperm := popMin_perm hpop
      have hmemE : e ∈ st.pq := hperm.mem_iff.mpr (List.mem_cons_self e rest)
      have hrest : ∀ x ∈ rest, x ∈ st.pq := fun x hx =>
        hperm.mem_iff.mpr (List.mem_cons_of_mem e hx)
      by_cases hst : e.d ≠ st.dist e.v
      · rw [if_pos hst] at hrun
        exact ih { st with pq := rest, popTrace := st.popTrace ++ [e] } final
          hc (fun x hx => hb x (hrest x hx)) hrun
      · rw [if_neg hst] at hrun
        by_cases hB2 : B ≤ e.d
        · rw [if_pos hB2] at hrun
          obtain rfl := Option.some.inj hrun
          exact chain_concat hc (fun last hlast => hb e hmemE last hlast)
        · rw [if_neg hB2] at hrun
          refine ih _ final ?_ ?_ hrun
          · have h1 := (scanEdges_ghost cppPush B e.d (outEdges g e.v)
              { st with pq := rest, popTrace := st.popTrace ++ [e],
                        settled := st.settled ++ [e.v],
                        freshDs := st.freshDs ++ [e.d] }).2.2
            rw [h1]
            exact chain_concat hc (fun last hlast => hb e hmemE last hlast)
          · intro x hx last hlast
            have h1 := (scanEdges_ghost cppPush B e.d (outEdges g e.v)
              { st with pq := rest, popTrace := st.popTrace ++ [e],
                        settled := st.settled ++ [e.v],
                        freshDs := st.freshDs ++ [e.d] }).2.2
            rw [h1] at hlast
            dsimp only at hlast
            rw [List.getLast?_concat] at hlast
            simp only [Option.mem_def, Option.some.injEq] at hlast
            subst hlast
            obtain ⟨ps, hps, hpsp⟩ := scanEdges_pq_cpp B e.d (outEdges g e.v)
              { st with pq := rest, popTrace := st.popTrace ++ [e],
                        settled := st.settled ++ [e.v],
                        freshDs := st.freshDs ++ [e.d] }
            rw [hps] at hx
            rcases List.mem_append.mp hx with hx | hx
            · obtain ⟨hxB, ed, hed, hdst, hval⟩ := hpsp x hx
              have hnw : (e.d + ed.w) % W64 = e.d + ed.w := by
                apply Nat.mod_eq_of_lt
                have := Hw e.v ed hed
                omega
              rw [hval, hnw]
              omega
            · have h2 := popMin_min hpop x (hrest x hx)
              rcases h2 with h2 | ⟨h2, _⟩ <;> omega

theorem cppInitFold_ghost (B : Nat) :
    ∀ (l : List (Nat × Nat)) (st : EState),
      (l.foldl (cppInitStep B) st).freshDs = st.freshDs
      ∧ (l.foldl (cppInitStep B) st).popTrace = st.popTrace
      ∧ (l.foldl (cppInitStep B) st).candTrace = st.candTrace
      ∧ (l.foldl (cppInitStep B) st).bPrime = st.bPrime := by
  intro l
  induction l with
  | nil => intro st; exact ⟨rfl, rfl, rfl, rfl⟩
  | cons sd l ih =>
    intro st
    simp only [List.foldl_cons]
    have h1 := ih (cppInitStep B st sd)
    have h2 : (cppInitStep B st sd).freshDs = st.freshDs
        ∧ (cppInitStep B st sd).popTrace = st.popTrace
        ∧ (cppInitStep B st sd).candTrace = st.candTrace
        ∧ (cppInitStep B st sd).bPrime = st.bPrime := by
      unfold cppInitStep
      split <;> exact ⟨rfl, rfl, rfl, rfl⟩
    exact ⟨h1.1.trans h2.1, h1.2.1.trans h2.2.1, h1.2.2.1.trans h2.2.2.1,
      h1.2.2.2.trans h2.2.2.2⟩

/-- C9 (amended): provided no relaxation can overflow `uint64`
(`B + w ≤ 2^64` for every edge weight `w`), the sequence of distances of
the pops that pass the staleness check during a run of the C++ Engine is
non-decreasing. -/
theorem C9_theorem {g : Graph} {srcs : List (Nat × Nat)} {B fuel : Nat}
    {final : EState}
    (Hw : ∀ e ∈ g.edges, B + e.w ≤ W64)
    (Hterm : cppRun g B fuel (cppInit srcs B) = some final) :
    List.Chain' (fun x y => x ≤ y) final.freshDs := by
  have HwOut : ∀ v, ∀ ed ∈ outEdges g v, B + ed.w ≤ W64 :=
    fun v ed hed => Hw ed (outEdges_subset g v ed hed)
  have hghost := cppInitFold_ghost B srcs emptyState
  refine cppRun_mono HwOut fuel _ final ?_ ?_ Hterm
  · have : (cppInit srcs B).freshDs = [] := hghost.1
    rw [this]
    exact List.chain'_nil
  · intro x hx last hlast
    have h0 : (cppInit srcs B).freshDs = [] := hghost.1
    rw [h0] at hlast
    simp at hlast

/-- Witness for C9 at a concrete input: on the two-node graph with
`B = 10` the post-staleness pop distances of the run are non-decreasing. -/
theorem C9_witness :
    List.Chain' (fun x y => x ≤ y)
      ((cppRun exLine 10 10 (cppInit [(0, 0)] 10)).getD emptyState).freshDs :=
  @C9_theorem exLine [(0, 0)] 10 10
    ((cppRun exLine 10 10 (cppInit [(0, 0)] 10)).getD emptyState)
    (by decide) rfl

theorem bUpd_foldl (B : Nat) :
    ∀ (l : List Nat) (b : Nat),
      (l.foldl (bUpd B) b ≤ b)
      ∧ (l.foldl (bUpd B) b = b
          ∨ (l.foldl (bUpd B) b ∈ l ∧ B ≤ l.foldl (bUpd B) b))
      ∧ (∀ x ∈ l, B ≤ x → l.foldl (bUpd B) b ≤ x) := by
  intro l
  induction l with
  | nil =>
    intro b
    exact ⟨Nat.le_refl _, Or.inl rfl, by simp⟩
  | cons x l ih =>
    intro b
    simp only [List.foldl_cons]
    have ihb := ih (bUpd B b x)
    have hb1 : bUpd B b x ≤ b := by unfold bUpd; split <;> omega
    have hb2 : B ≤ x → bUpd B b x ≤ x := by
      intro hx
      unfold bUpd
      split <;> omega
    have hbor : bUpd B b x = b ∨ (bUpd B b x = x ∧ B ≤ x) := by
      unfold bUpd
      split
      · rename_i h
        exact Or.inr ⟨rfl, h.1⟩
      · exact Or.inl rfl
    refine ⟨Nat.le_trans ihb.1 hb1, ?_, ?_⟩
    · rcases ihb.2.1 with h | ⟨hmem, hB⟩
      · rw [h]
        rcases hbor with h2 | ⟨h2, h3⟩
        · exact Or.inl h2
        · exact Or.inr ⟨by rw [h2]; exact List.mem_cons_self x l, by omega⟩
      · exact Or.inr ⟨List.mem_cons_of_mem x hmem, hB⟩
    · intro y hy hBy
      rcases List.mem_cons.mp hy with hy | hy
      · subst hy
        exact Nat.le_trans ihb.1 (hb2 hBy)
      · exact ihb.2.2 y hy hBy

theorem cppRun_bPrime {g : Graph} {B : Nat} :
    ∀ (fuel : Nat) (st final : EState),
      st.bPrime = st.candTrace.foldl (bUpd B) INF →
      (∀ x ∈ st.pq, x.d < B) →
      (∀ x ∈ st.popTrace, x.d < B) →
      (∀ x ∈ st.candTrace, x < W64) →
      cppRun g B fuel st = some final →
      final.bPrime = final.candTrace.foldl (bUpd B) INF
      ∧ (∀ x ∈ final.popTrace, x.d < B)
      ∧ (∀ x ∈ final.candTrace, x < W64) := by
  intro fuel
  induction fuel with
  | zero =>
    intro st final h1 h2 h3 h4 hrun
    simp only [cppRun] at hrun
    by_cases he : st.pq.isEmpty
    · rw [if_pos he] at hrun
      obtain rfl := Option.some.inj hrun
      exact ⟨h1, h3, h4⟩
    · rw [if_neg he] at hrun
      exact absurd hrun (by simp)
  | succ fuel ih =>
    intro st final h1 h2 h3 h4 hrun
    rcases hpop : popMin st.pq with _ | ⟨e, rest⟩
    · simp only [cppRun, hpop] at hrun
      obtain rfl := Option.some.inj hrun
      exact ⟨h1, h3, h4⟩
    · simp only [cppRun, hpop] at hrun
      have hperm := popMin_perm hpop
      have hmemE : e ∈ st.pq := hperm.mem_iff.mpr (List.mem_cons_self e rest)
      have hrest : ∀ x ∈ rest, x ∈ st.pq := fun x hx =>
        hperm.mem_iff.mpr (List.mem_cons_of_mem e hx)
      have hpop3 : ∀ x ∈ st.popTrace ++ [e], x.d < B := by
        intro x hx
        rcases List.mem_append.mp hx with hx | hx
        · exact h3 x hx
        · simp only [List.mem_singleton] at hx
          subst hx
          exact h2 x hmemE
      by_cases hst : e.d ≠ st.dist e.v
      · rw [if_pos hst] at hrun
        exact ih { st with pq := rest, popTrace := st.popTrace ++ [e] } final
          h1 (fun x hx => h2 x (hrest x hx)) hpop3 h4 hrun
      · rw [if_neg hst] at hrun
        by_cases hB2 : B ≤ e.d
        · exfalso
          have := h2 e hmemE
          omega
        · rw [if_neg hB2] at hrun
          obtain ⟨ps, hps, hpsp⟩ := scanEdges_pq_cpp B e.d (outEdges g e.v)
            { st with pq := rest, popTrace := st.popTrace ++ [e],
                      settled := st.settled ++ [e.v],
                      freshDs := st.freshDs ++ [e.d] }
          have hbp := scanEdges_bPrime cppPush B e.d (outEdges g e.v)
            { st with pq := rest, popTrace := st.popTrace ++ [e],
                      settled := st.settled ++ [e.v],
                      freshDs := st.freshDs ++ [e.d] }
          have hghost := scanEdges_ghost cppPush B e.d (outEdges g e.v)
            { st with pq := rest, popTrace := st.popTrace ++ [e],
                      settled := st.settled ++ [e.v],
                      freshDs := st.freshDs ++ [e.d] }
          refine ih _ final ?_ ?_ ?_ ?_ hrun
          · rw [hbp.1, hbp.2]
            dsimp only
            rw [h1, List.foldl_append]
          · intro x hx
            rw [hps] at hx
            rcases List.mem_append.mp hx with hx | hx
            · exact (hpsp x hx).1
            · exact h2 x (hrest x hx)
          · rw [hghost.2.1]
            exact hpop3
          · intro x hx
            rw [hbp.2] at hx
            dsimp only at hx
            rcases List.mem_append.mp hx with hx | hx
            · exact h4 x hx
            · obtain ⟨ed, hed, hval⟩ := List.mem_map.mp hx
              rw [← hval]
              exact Nat.mod_lt _ (by norm_num [W64])

/-- C2 (amended): for every run of the C++ Engine, the final boundary value
`bprime` is the minimum of the sentinel and all observed distances at or
above `B` (popped distances and relaxation candidates as computed, i.e. in
`uint64`); and `bprime` equals the sentinel exactly when every observed
value `≥ B` was itself the sentinel value `2^64 - 1` (a candidate equal to
the sentinel never displaces it, which is the one correction to the claim's
"exactly when none was observed"). -/
theorem C2_theorem {g : Graph} {srcs : List (Nat × Nat)} {B fuel : Nat}
    {final : EState}
    (Hterm : cppRun g B fuel (cppInit srcs B) = some final) :
    (final.bPrime = INF
      ∨ (final.bPrime ∈ final.popTrace.map Entry.d ++ final.candTrace
          ∧ B ≤ final.bPrime))
    ∧ (∀ x ∈ final.popTrace.map Entry.d ++ final.candTrace, B ≤ x →
        final.bPrime ≤ x)
    ∧ (final.bPrime = INF ↔
        ∀ x ∈ final.popTrace.map Entry.d ++ final.candTrace, B ≤ x →
          x = INF) := by
  have hghost := cppInitFold_ghost B srcs emptyState
  have hpq0 : ∀ x ∈ (cppInit srcs B).pq, x.d < B := by
    have h := @cppInitStep_props g srcs B srcs emptyState
      (fun sd hsd => hsd)
      ⟨fun v hv => absurd rfl hv, fun x hx => absurd hx (List.not_mem_nil x),
       fun v hv => absurd rfl hv, rfl⟩
    exact fun x hx => (h.2.1 x hx).1
  have hbP : (cppInit srcs B).bPrime = INF := hghost.2.2.2
  have hpT : (cppInit srcs B).popTrace = [] := hghost.2.1
  have hcT : (cppInit srcs B).candTrace = [] := hghost.2.2.1
  obtain ⟨hb, hpopB, hcandW⟩ := cppRun_bPrime fuel (cppInit srcs B) final
    (by rw [hbP, hcT]; rfl)
    hpq0
    (by rw [hpT]; intro x hx; exact absurd hx (List.not_mem_nil x))
    (by rw [hcT]; intro x hx; exact absurd hx (List.not_mem_nil x))
    Hterm
  have hfold := bUpd_foldl B final.candTrace INF
  rw [← hb] at hfold
  have hWI : W64 = INF + 1 := by unfold W64 INF; omega
  have hpopNot : ∀ x ∈ final.popTrace.map Entry.d, ¬ B ≤ x := by
    intro x hx
    obtain ⟨p, hp, hval⟩ := List.mem_map.mp hx
    have := hpopB p hp
    omega
  refine ⟨?_, ?_, ?_, ?_⟩
  · rcases hfold.2.1 with h | ⟨hmem, hB⟩
    · exact Or.inl (by rw [h])
    · exact Or.inr ⟨List.mem_append_right _ hmem, hB⟩
  · intro x hx hBx
    rcases List.mem_append.mp hx with hx | hx
    · exact absurd hBx (hpopNot x hx)
    · exact hfold.2.2 x hx hBx
  · intro hINF x hx hBx
    rcases List.mem_append.mp hx with hx | hx
    · exact absurd hBx (hpopNot x hx)
    · have h1 := hfold.2.2 x hx hBx
      have h2 := hcandW x hx
      omega
  · intro hall
    rcases hfold.2.1 with h | ⟨hmem, hB⟩
    · exact h
    · exact hall final.bPrime (List.mem_append_right _ hmem) hB

/-- Witness for C2 at a concrete input: the two-node graph with `B = 10`;
the run's boundary value is the sentinel and the characterization holds. -/
theorem C2_witness :
    (((cppRun exLine 10 10 (cppInit [(0, 0)] 10)).getD emptyState).bPrime = INF
      ∨ (((cppRun exLine 10 10 (cppInit [(0, 0)] 10)).getD emptyState).bPrime
            ∈ ((cppRun exLine 10 10 (cppInit [(0, 0)] 10)).getD
                emptyState).popTrace.map Entry.d
              ++ ((cppRun exLine 10 10 (cppInit [(0, 0)] 10)).getD
                emptyState).candTrace
          ∧ 10 ≤ ((cppRun exLine 10 10 (cppInit [(0, 0)] 10)).getD
              emptyState).bPrime)) := by
  exact (@C2_theorem exLine [(0, 0)] 10 10
    ((cppRun exLine 10 10 (cppInit [(0, 0)] 10)).getD emptyState)
    rfl).1

theorem scanEdges_distOk (push : List Entry → Entry → List Entry) (B d : Nat)
    (es : List Edge) (st : EState) (h : DistOk B st) :
    DistOk B (scanEdges push B d st es) := by
  intro v
  by_cases hch : (scanEdges push B d st es).dist v = st.dist v
  · rw [hch]
    exact h v
  · exact Or.inr (scanEdges_dist_changed push B d es st v hch).2.2

theorem cppRun_distOk {g : Graph} {B : Nat} :
    ∀ (fuel : Nat) (st final : EState), DistOk B st →
      cppRun g B fuel st = some final → DistOk B final := by
  intro fuel
  induction fuel with
  | zero =>
    intro st final h hrun
    simp only [cppRun] at hrun
    by_cases he : st.pq.isEmpty
    · rw [if_pos he] at hrun
      obtain rfl := Option.some.inj hrun
      exact h
    · rw [if_neg he] at hrun
      exact absurd hrun (by simp)
  | succ fuel ih =>
    intro st final h hrun
    rcases hpop : popMin st.pq with _ | ⟨e, rest⟩
    · simp only [cppRun, hpop] at hrun
      obtain rfl := Option.some.inj hrun
      exact h
    · simp only [cppRun, hpop] at hrun
      by_cases hst : e.d ≠ st.dist e.v
      · rw [if_pos hst] at hrun
        exact ih { st with pq := rest, popTrace := st.popTrace ++ [e] } final h hrun
      · rw [if_neg hst] at hrun
        by_cases hB2 : B ≤ e.d
        · rw [if_pos hB2] at hrun
          obtain rfl := Option.some.inj hrun
          exact h
        · rw [if_neg hB2] at hrun
          exact ih _ final
            (scanEdges_distOk cppPush B e.d (outEdges g e.v)
              { st with pq := rest, popTrace := st.popTrace ++ [e],
                        settled := st.settled ++ [e.v],
                        freshDs := st.freshDs ++ [e.d] } h)
            hrun

theorem cRun_distOk {g : Graph} {B : Nat} :
    ∀ (fuel : Nat) (st final : EState), DistOk B st →
      cRun g B fuel st = some final → DistOk B final := by
  intro fuel
  induction fuel with
  | zero =>
    intro st final h hrun
    simp only [cRun] at hrun
    by_cases he : st.pq.isEmpty
    · rw [if_pos he] at hrun
      obtain rfl := Option.some.inj hrun
      exact h
    · rw [if_neg he] at hrun
      exact absurd hrun (by simp)
  | succ fuel ih =>
    intro st final h hrun
    rcases hpop : hPop st.pq with _ | ⟨e, rest⟩
    · simp only [cRun, hpop] at hrun
      obtain rfl := Option.some.inj hrun
      exact h
    · simp only [cRun, hpop] at hrun
      by_cases hst : e.d ≠ st.dist e.v
      · rw [if_pos hst] at hrun
        exact ih { st with pq := rest, popTrace := st.popTrace ++ [e] } final h hrun
      · rw [if_neg hst] at hrun
        by_cases hB2 : B ≤ e.d
        · rw [if_pos hB2] at hrun
          obtain rfl := Option.some.inj hrun
          exact h
        · rw [if_neg hB2] at hrun
          exact ih _ final
            (scanEdges_distOk hPush B e.d (outEdges g e.v)
              { st with pq := rest, popTrace := st.popTrace ++ [e],
                        settled := st.settled ++ [e.v],
                        freshDs := st.freshDs ++ [e.d] } h)
            hrun

theorem cppInit_distOk (srcs : List (Nat × Nat)) (B : Nat) :
    DistOk B (cppInit srcs B) := by
  have h := @cppInitStep_props (Graph.mk 0 [] []) srcs B
    srcs emptyState (fun sd hsd => hsd)
    ⟨fun v hv => absurd rfl hv, fun x hx => absurd hx (List.not_mem_nil x),
     fun v hv => absurd rfl hv, rfl⟩
  intro v
  by_cases hv : (cppInit srcs B).dist v = INF
  · exact Or.inl hv
  · exact Or.inr (h.1 v hv).1

theorem cInitFold_dist :
    ∀ (l : List (Nat × Nat)) (st : EState) (v : Nat),
      ((l.foldl cInitStep st).dist v = st.dist v)
      ∨ ((l.foldl cInitStep st).dist v = 0) := by
  intro l
  induction l with
  | nil => intro st v; exact Or.inl rfl
  | cons sd l ih =>
    intro st v
    simp only [List.foldl_cons]
    rcases ih (cInitStep st sd) v with h | h
    · rw [h]
      unfold cInitStep
      dsimp only
      by_cases hv : v = sd.1
      · rw [if_pos hv]
        exact Or.inr rfl
      · rw [if_neg hv]
        exact Or.inl rfl
    · exact Or.inr h

theorem cInit_distOk (srcs : List (Nat × Nat)) {B : Nat} (hB : 1 ≤ B) :
    DistOk B (cInit srcs) := by
  intro v
  unfold cInit
  rcases cInitFold_dist srcs emptyState v with h | h
  · exact Or.inl h
  · exact Or.inr (by omega)

/-- C4 (amended): the C++ Engine never finalizes a distance `≥ B` (every
final entry is the sentinel or strictly below `B`) for every graph, source
set and bound; the C implementation satisfies the same property for every
bound `B ≥ 1`, but not for `B = 0`, because it assigns distance `0` to
every source regardless of `B`. -/
theorem C4_theorem :
    (∀ (g : Graph) (srcs : List (Nat × Nat)) (B fuel : Nat) (final : EState),
       cppRun g B fuel (cppInit srcs B) = some final → DistOk B final)
    ∧ (∀ (g : Graph) (srcs : List (Nat × Nat)) (B fuel : Nat) (final : EState),
       1 ≤ B → cRun g B fuel (cInit srcs) = some final → DistOk B final) := by
  constructor
  · intro g srcs B fuel final hrun
    exact cppRun_distOk fuel _ final (cppInit_distOk srcs B) hrun
  · intro g srcs B fuel final hB hrun
    exact cRun_distOk fuel _ final (cInit_distOk srcs hB) hrun

/-- Witness for C4 at a concrete input: both engines on the two-node graph
with `B = 10` finalize only sentinel or sub-bound distances. -/
theorem C4_witness :
    DistOk 10 ((cppRun exLine 10 10 (cppInit [(0, 0)] 10)).getD emptyState)
    ∧ DistOk 10 ((cRun exLine 10 10 (cInit [(0, 0)])).getD emptyState) :=
  ⟨C4_theorem.1 exLine [(0, 0)] 10 10 _ rfl,
   C4_theorem.2 exLine [(0, 0)] 10 10 _ (by decide) rfl⟩

theorem getD_set_self {l : List Entry} {i : Nat} (v : Entry)
    (h : i < l.length) : (l.set i v).getD i default = v := by
  simp [List.getD, List.getElem?_set, h]

theorem getD_set_ne {l : List Entry} {i j : Nat} (v : Entry) (h : i ≠ j) :
    (l.set i v).getD j default = l.getD j default := by
  simp [List.getD, List.getElem?_set, h]

theorem getD_append_lt {l1 l2 : List Entry} {j : Nat} (h : j < l1.length) :
    (l1 ++ l2).getD j default = l1.getD j default := by
  simp [List.getD, List.getElem?_append, h]

theorem getD_append_len (l : List Entry) (e : Entry) :
    (l ++ [e]).getD l.length default = e := by
  simp [List.getD, List.getElem?_append]

theorem getD_dropLast_lt {l : List Entry} {j : Nat} (h : j < l.length - 1) :
    l.dropLast.getD j default = l.getD j default := by
  simp only [List.getD, List.get?_eq_getElem?]
  rw [List.getElem?_eq_getElem (by simp [List.length_dropLast]; omega),
    List.getElem?_eq_getElem (by omega : j < l.length)]
  simp [List.getElem_dropLast]

theorem siftUpF_zero : ∀ (f : Nat) (a : List Entry) (e : Entry),
    siftUpF f a 0 e = a.set 0 e := by
  intro f a e
  cases f with
  | zero => rfl
  | succ f => simp [siftUpF]

theorem siftUpF_fuel : ∀ (f1 : Nat) {f2 : Nat} (a : List Entry) (i : Nat)
    (e : Entry), i ≤ f1 → i ≤ f2 → siftUpF f1 a i e = siftUpF f2 a i e := by
  intro f1
  induction f1 with
  | zero =>
    intro f2 a i e h1 h2
    obtain rfl : i = 0 := by omega
    rw [siftUpF_zero, siftUpF_zero]
  | succ f1 ih =>
    intro f2 a i e h1 h2
    by_cases hi : i = 0
    · subst hi
      rw [siftUpF_zero, siftUpF_zero]
    · rcases f2 with _ | f2
      · omega
      · simp only [siftUpF, if_neg hi]
        by_cases hc : (a.getD ((i - 1) / 2) default).d ≤ e.d
        · rw [if_pos hc, if_pos hc]
        · rw [if_neg hc, if_neg hc]
          exact ih _ _ e (by omega) (by omega)

theorem siftUp_zero (a : List Entry) (e : Entry) : siftUp a 0 e = a.set 0 e :=
  siftUpF_zero 0 a e

theorem siftUp_succ (a : List Entry) {i : Nat} (e : Entry) (hi : i ≠ 0) :
    siftUp a i e =
      if (a.getD ((i - 1) / 2) default).d ≤ e.d then a.set i e
      else siftUp (a.set i (a.getD ((i - 1) / 2) default)) ((i - 1) / 2) e := by
  unfold siftUp
  rcases i with _ | k
  · exact absurd rfl hi
  · simp only [siftUpF, if_neg hi]
    by_cases hc : (a.getD ((k + 1 - 1) / 2) default).d ≤ e.d
    · rw [if_pos hc, if_pos hc]
    · rw [if_neg hc, if_neg hc]
      exact siftUpF_fuel k _ _ e (by omega) (by omega)

theorem siftUp_length : ∀ (f : Nat) (a : List Entry) (i : Nat) (e : Entry),
    (siftUpF f a i e).length = a.length := by
  intro f
  induction f with
  | zero => intro a i e; exact List.length_set a i e
  | succ f ih =>
    intro a i e
    simp only [siftUpF]
    by_cases hi : i = 0
    · rw [if_pos hi]
      exact List.length_set a 0 e
    · rw [if_neg hi]
      by_cases hc : (a.getD ((i - 1) / 2) default).d ≤ e.d
      · rw [if_pos hc]
        exact List.length_set a i e
      · rw [if_neg hc]
        rw [ih]
        exact List.length_set a i _

theorem siftUp_heap :
    ∀ (i : Nat) (a : List Entry) (e : Entry), i < a.length →
      (∀ j, j < a.length → 0 < j → j ≠ i → (j - 1) / 2 ≠ i →
        (a.getD ((j - 1) / 2) default).d ≤ (a.getD j default).d) →
      (∀ j, j < a.length → 0 < j → (j - 1) / 2 = i →
        e.d ≤ (a.getD j default).d) →
      (0 < i → ∀ j, j < a.length → 0 < j → (j - 1) / 2 = i →
        (a.getD ((i - 1) / 2) default).d ≤ (a.getD j default).d) →
      IsHeapD (siftUp a i e) := by
  intro i
  induction i using Nat.strong_induction_on with
  | _ i ih =>
    intro a e hlen h1 h2 h3
    by_cases hi : i = 0
    · subst hi
      rw [siftUp_zero]
      intro j hj hj0
      rw [List.length_set] at hj
      have hjne : j ≠ 0 := by omega
      rw [getD_set_ne e (fun hc => hjne hc.symm)]
      by_cases hq : (j - 1) / 2 = 0
      · rw [hq, getD_set_self e hlen]
        exact h2 j hj hj0 hq
      · rw [getD_set_ne e (fun hc => hq hc.symm)]
        exact h1 j hj hj0 hjne hq
    · rw [siftUp_succ a e hi]
      by_cases hc : (a.getD ((i - 1) / 2) default).d ≤ e.d
      · rw [if_pos hc]
        intro j hj hj0
        rw [List.length_set] at hj
        by_cases hji : j = i
        · subst hji
          rw [getD_set_ne e (show j ≠ (j - 1) / 2 by omega),
            getD_set_self e hlen]
          exact hc
        · rw [getD_set_ne e (fun hc2 => hji hc2.symm)]
          by_cases hq : (j - 1) / 2 = i
          · rw [hq, getD_set_self e hlen]
            exact h2 j hj hj0 hq
          · rw [getD_set_ne e (fun hc2 => hq hc2.symm)]
            exact h1 j hj hj0 hji hq
      · rw [if_neg hc]
        have hp : (i - 1) / 2 < i := by omega
        have hpi : (i - 1) / 2 ≠ i := by omega
        have hplen : (i - 1) / 2 < (a.set i (a.getD ((i - 1) / 2) default)).length := by
          rw [List.length_set]
          omega
        refine ih ((i - 1) / 2) hp _ e hplen ?_ ?_ ?_
        · -- H1 for the new hole
          intro j hj hj0 hjp hqp
          rw [List.length_set] at hj
          have hji : j ≠ i := by omega
          rw [getD_set_ne _ (fun hc2 => hji hc2.symm)]
          by_cases hq : (j - 1) / 2 = i
          · rw [hq, getD_set_self _ hlen]
            exact h3 (by omega) j hj hj0 hq
          · rw [getD_set_ne _ (fun hc2 => hq hc2.symm)]
            exact h1 j hj hj0 hji hq
        · -- H2 for the new hole
          intro j hj hj0 hq
          rw [List.length_set] at hj
          by_cases hji : j = i
          · subst hji
            rw [getD_set_self _ hlen]
            omega
          · rw [getD_set_ne _ (fun hc2 => hji hc2.symm)]
            have := h1 j hj hj0 hji (by omega)
            rw [hq] at this
            omega
        · -- H3 (bridge) for the new hole
          intro hp0 j hj hj0 hq
          rw [List.length_set] at hj
          have hppi : ((i - 1) / 2 - 1) / 2 ≠ i := by omega
          rw [getD_set_ne _ (fun hc2 => hppi hc2.symm)]
          have hpar : (a.getD (((i - 1) / 2 - 1) / 2) default).d
              ≤ (a.getD ((i - 1) / 2) default).d :=
            h1 ((i - 1) / 2) (by omega) hp0 hpi (by omega)
          by_cases hji : j = i
          · subst hji
            rw [getD_set_self _ hlen]
            exact hpar
          · rw [getD_set_ne _ (fun hc2 => hji hc2.symm)]
            have h5 := h1 j hj hj0 hji (by omega)
            rw [hq] at h5
            omega

theorem hPush_heap {a : List Entry} (e : Entry) (h : IsHeapD a) :
    IsHeapD (hPush a e) := by
  unfold hPush
  refine siftUp_heap a.length (a ++ [e]) e (by simp) ?_ ?_ ?_
  · intro j hj hj0 hji hqi
    simp only [List.length_append, List.length_singleton] at hj
    have hjlt : j < a.length := by omega
    have hqlt : (j - 1) / 2 < a.length := by omega
    rw [getD_append_lt hjlt, getD_append_lt hqlt]
    exact h j hjlt hj0
  · intro j hj hj0 hq
    simp only [List.length_append, List.length_singleton] at hj
    omega
  · intro h0 j hj hj0 hq
    simp only [List.length_append, List.length_singleton] at hj
    omega

theorem siftDownF_stuck : ∀ (f : Nat) (a : List Entry) (i : Nat) (x : Entry),
    a.length ≤ i → siftDownF f a i x = a.set i x := by
  intro f a i x h
  cases f with
  | zero => rfl
  | succ f =>
    simp only [siftDownF]
    rw [if_neg (by omega)]

theorem siftDownF_fuel : ∀ (f1 : Nat) {f2 : Nat} (a : List Entry) (i : Nat)
    (x : Entry), a.length ≤ f1 + i → a.length ≤ f2 + i →
    siftDownF f1 a i x = siftDownF f2 a i x := by
  intro f1
  induction f1 with
  | zero =>
    intro f2 a i x h1 h2
    rw [siftDownF_stuck 0 a i x (by omega), siftDownF_stuck f2 a i x (by omega)]
  | succ f1 ih =>
    intro f2 a i x h1 h2
    by_cases hil : a.length ≤ i
    · rw [siftDownF_stuck _ a i x hil, siftDownF_stuck f2 a i x hil]
    · rcases f2 with _ | f2
      · omega
      · simp only [siftDownF]
        by_cases hl : 2 * i + 1 < a.length
        · rw [if_pos hl, if_pos hl]
          by_cases hstop : x.d ≤ ((a.getD (if 2 * i + 1 + 1 < a.length ∧
              (a.getD (2 * i + 1 + 1) default).d < (a.getD (2 * i + 1) default).d
              then 2 * i + 1 + 1 else 2 * i + 1) default)).d
          · rw [if_pos hstop, if_pos hstop]
          · rw [if_neg hstop, if_neg hstop]
            apply ih
            · rw [List.length_set]
              split <;> omega
            · rw [List.length_set]
              split <;> omega
        · rw [if_neg hl, if_neg hl]

theorem siftDownF_heap :
    ∀ (f : Nat) (a : List Entry) (i : Nat) (x : Entry),
      i < a.length → a.length ≤ f + i →
      (∀ j, j < a.length → 0 < j → j ≠ i → (j - 1) / 2 ≠ i →
        (a.getD ((j - 1) / 2) default).d ≤ (a.getD j default).d) →
      (0 < i → (a.getD ((i - 1) / 2) default).d ≤ x.d) →
      (0 < i → ∀ j, j < a.length → (j - 1) / 2 = i →
        (a.getD ((i - 1) / 2) default).d ≤ (a.getD j default).d) →
      IsHeapD (siftDownF f a i x) := by
  intro f
  induction f with
  | zero =>
    intro a i x hi hf
    omega
  | succ f ih =>
    intro a i x hi hf h1 h2 h3
    simp only [siftDownF]
    by_cases hl : 2 * i + 1 < a.length
    · rw [if_pos hl]
      have hmfacts : ∀ m, m = (if 2 * i + 1 + 1 < a.length ∧
            (a.getD (2 * i + 1 + 1) default).d < (a.getD (2 * i + 1) default).d
            then 2 * i + 1 + 1 else 2 * i + 1) →
          (2 * i + 1 ≤ m ∧ m ≤ 2 * i + 2 ∧ m < a.length ∧ (m - 1) / 2 = i
            ∧ ∀ j, j < a.length → 0 < j → (j - 1) / 2 = i →
                (a.getD m default).d ≤ (a.getD j default).d) := by
        intro m hm
        by_cases hcm : 2 * i + 1 + 1 < a.length ∧
            (a.getD (2 * i + 1 + 1) default).d < (a.getD (2 * i + 1) default).d
        · rw [if_pos hcm] at hm
          subst hm
          refine ⟨by omega, by omega, by omega, by omega, ?_⟩
          intro j hj hj0 hq
          have : j = 2 * i + 1 ∨ j = 2 * i + 2 := by omega
          rcases this with rfl | rfl
          · omega
          · exact Nat.le_refl _
        · rw [if_neg hcm] at hm
          subst hm
          refine ⟨Nat.le_refl _, by omega, hl, by omega, ?_⟩
          intro j hj hj0 hq
          have : j = 2 * i + 1 ∨ j = 2 * i + 2 := by omega
          rcases this with rfl | rfl
          · exact Nat.le_refl _
          · rw [Classical.not_and_iff_or_not_not] at hcm
            rcases hcm with hcm | hcm
            · omega
            · have e2 : 2 * i + 1 + 1 = 2 * i + 2 := by omega
              rw [e2] at hcm
              omega
      obtain ⟨hm1, hm2, hmlen, hmpar, hmmin⟩ := hmfacts _ rfl
      by_cases hstop : x.d ≤ ((a.getD (if 2 * i + 1 + 1 < a.length ∧
          (a.getD (2 * i + 1 + 1) default).d < (a.getD (2 * i + 1) default).d
          then 2 * i + 1 + 1 else 2 * i + 1) default)).d
      · rw [if_pos hstop]
        intro j hj hj0
        rw [List.length_set] at hj
        by_cases hji : j = i
        · subst hji
          rw [getD_set_ne x (show j ≠ (j - 1) / 2 by omega),
            getD_set_self x hi]
          exact h2 hj0
        · rw [getD_set_ne x (fun hc => hji hc.symm)]
          by_cases hq : (j - 1) / 2 = i
          · rw [hq, getD_set_self x hi]
            exact Nat.le_trans hstop (hmmin j hj hj0 hq)
          · rw [getD_set_ne x (fun hc => hq hc.symm)]
            exact h1 j hj hj0 hji hq
      · rw [if_neg hstop]
        push_neg at hstop
        refine ih _ _ x (by rw [List.length_set]; omega)
          (by rw [List.length_set]; omega) ?_ ?_ ?_
        · intro j hj hj0 hjm hqm
          rw [List.length_set] at hj
          by_cases hji : j = i
          · subst hji
            rw [getD_set_self _ hi,
              getD_set_ne _ (show j ≠ (j - 1) / 2 by omega)]
            exact h3 hj0 _ hmlen hmpar
          · rw [getD_set_ne _ (fun hc => hji hc.symm)]
            by_cases hq : (j - 1) / 2 = i
            · rw [hq, getD_set_self _ hi]
              exact hmmin j hj hj0 hq
            · rw [getD_set_ne _ (fun hc => hq hc.symm)]
              exact h1 j hj hj0 hji hq
        · intro hm0
          rw [hmpar, getD_set_self _ hi]
          omega
        · intro hm0 j hj hq
          rw [List.length_set] at hj
          rw [hmpar, getD_set_self _ hi]
          have hji : j ≠ i := by omega
          rw [getD_set_ne _ (fun hc => hji hc.symm)]
          have h5 := h1 j hj (by omega) hji (by omega)
          rw [hq] at h5
          exact h5
    · rw [if_neg hl]
      intro j hj hj0
      rw [List.length_set] at hj
      by_cases hji : j = i
      · subst hji
        rw [getD_set_ne x (show j ≠ (j - 1) / 2 by omega),
          getD_set_self x hi]
        exact h2 hj0
      · have hq : (j - 1) / 2 ≠ i := by omega
        rw [getD_set_ne x (fun hc => hji hc.symm),
          getD_set_ne x (fun hc => hq hc.symm)]
        exact h1 j hj hj0 hji hq

theorem hPop_heap {a : List Entry} (h : IsHeapD a) {e : Entry}
    {b : List Entry} (hpop : hPop a = some (e, b)) : IsHeapD b := by
  rcases a with _ | ⟨top, rest⟩
  · simp [hPop] at hpop
  · simp only [hPop] at hpop
    obtain ⟨he, hb⟩ := Prod.mk.injEq _ _ _ _ ▸ Option.some.inj hpop
    subst he
    rcases rest with _ | ⟨r1, rest⟩
    · simp at hb
      subst hb
      intro j hj hj0
      simp at hj
    · have hbe : ¬ ((top :: r1 :: rest).dropLast.isEmpty = true) := by
        simp [List.dropLast]
      rw [if_neg hbe] at hb
      rw [← hb]
      unfold siftDown
      have hlen : (top :: r1 :: rest).dropLast.length
          = (top :: r1 :: rest).length - 1 := by
        simp [List.length_dropLast]
      refine siftDownF_heap _ _ 0 _ (by simp [List.length_dropLast]) (by omega)
        ?_ (by omega) (by omega)
      intro j hj hj0 hji hqi
      rw [hlen] at hj
      rw [getD_dropLast_lt hj, getD_dropLast_lt (by omega)]
      exact h j (by omega) hj0

theorem getD_eq_getElem {a : List Entry} {j : Nat} (h : j < a.length) :
    a.getD j default = a[j] := by
  simp [List.getD, List.getElem?_eq_getElem h]

theorem heap_root_min {a : List Entry} (h : IsHeapD a) :
    ∀ j, j < a.length → (a.getD 0 default).d ≤ (a.getD j default).d := by
  intro j
  induction j using Nat.strong_induction_on with
  | _ j ih =>
    intro hj
    rcases Nat.eq_zero_or_pos j with rfl | hj0
    · exact Nat.le_refl _
    · exact Nat.le_trans (ih ((j - 1) / 2) (by omega) (by omega)) (h j hj hj0)

theorem hPop_min {a : List Entry} (h : IsHeapD a) {e : Entry}
    {b : List Entry} (hpop : hPop a = some (e, b)) : ∀ x ∈ a, e.d ≤ x.d := by
  intro x hx
  have he : e = a.getD 0 default := by
    rcases a with _ | ⟨top, rest⟩
    · simp [hPop] at hpop
    · simp only [hPop] at hpop
      obtain ⟨he, _⟩ := Prod.mk.injEq _ _ _ _ ▸ Option.some.inj hpop
      rw [← he]
      rfl
  obtain ⟨j, hj, hval⟩ := List.getElem_of_mem hx
  rw [he, ← hval, ← getD_eq_getElem hj]
  exact heap_root_min h j hj

/-- C10: the hand-rolled C binary heap is correct: `heap_pop` on an empty
heap reports failure and produces nothing; `heap_pop` on any non-empty heap
produces an entry; `heap_push` preserves the binary-heap ordering property
(each parent's `d` at most each child's `d`); and on a heap satisfying the
ordering property `heap_pop` preserves it and returns an entry whose `d` is
minimal among all entries currently in the heap. -/
theorem C10_theorem :
    (hPop [] = none)
    ∧ (∀ a : List Entry, a ≠ [] → (hPop a).isSome = true)
    ∧ (∀ (a : List Entry) (e : Entry), IsHeapD a → IsHeapD (hPush a e))
    ∧ (∀ a : List Entry, IsHeapD a → ∀ e b, hPop a = some (e, b) →
        IsHeapD b ∧ ∀ x ∈ a, e.d ≤ x.d) := by
  refine ⟨rfl, ?_, ?_, ?_⟩
  · intro a ha
    rcases a with _ | ⟨top, rest⟩
    · exact absurd rfl ha
    · rfl
  · intro a e h
    exact hPush_heap e h
  · intro a h e b hpop
    exact ⟨hPop_heap h hpop, hPop_min h hpop⟩

/-- Witness for C10 at concrete inputs: pushing `(0,7)` onto the two-entry
heap keeps the ordering property, and popping the heap `[(1,5), (2,3)]`
keeps the property and returns the minimum distance `1`. -/
theorem C10_witness :
    IsHeapD (hPush [⟨1, 5⟩, ⟨2, 3⟩] ⟨0, 7⟩)
    ∧ (IsHeapD [⟨2, 3⟩] ∧ ∀ x ∈ [Entry.mk 1 5, Entry.mk 2 3], 1 ≤ x.d) := by
  constructor
  · exact C10_theorem.2.2.1 [⟨1, 5⟩, ⟨2, 3⟩] ⟨0, 7⟩ (by decide)
  · have h := C10_theorem.2.2.2 [⟨1, 5⟩, ⟨2, 3⟩] (by decide) ⟨1, 5⟩ [⟨2, 3⟩] rfl
    exact ⟨h.1, fun x hx => h.2 x hx⟩

/-- C7 (amended): the C++ implementation's `std::priority_queue` with
`Entry::operator<` pops the lexicographically least `(distance, node id)`
entry — on equal distances the smaller node id is popped first,
deterministically, and the pop removes exactly one occurrence.  The C
implementation's heap compares by `d` alone: its pop still returns an entry
of minimal distance, but offers no node-id tie-break (the counterexample
shows equal-distance entries popped in heap order). -/
theorem C7_theorem :
    (∀ (l : List Entry) (m : Entry) (rest : List Entry),
        popMin l = some (m, rest) →
        (∀ x ∈ l, m.d < x.d ∨ (m.d = x.d ∧ m.v ≤ x.v)) ∧ l.Perm (m :: rest))
    ∧ (∀ a : List Entry, IsHeapD a → ∀ e b, hPop a = some (e, b) →
        ∀ x ∈ a, e.d ≤ x.d) := by
  constructor
  · intro l m rest h
    exact ⟨popMin_min h, popMin_perm h⟩
  · intro a h e b hpop
    exact hPop_min h hpop

/-- Witness for C7 at a concrete input: from the queue containing `(1,5)`
and `(1,3)` the C++ pop extracts `(1,3)` — equal distances, smaller id
first. -/
theorem C7_witness :
    (∀ x ∈ [Entry.mk 1 5, Entry.mk 1 3],
        (Entry.mk 1 3).d < x.d ∨ ((Entry.mk 1 3).d = x.d ∧ (Entry.mk 1 3).v ≤ x.v))
    ∧ ([Entry.mk 1 5, Entry.mk 1 3]).Perm (Entry.mk 1 3 :: [Entry.mk 1 5]) :=
  C7_theorem.1 [⟨1, 5⟩, ⟨1, 3⟩] ⟨1, 3⟩ [⟨1, 5⟩] rfl

theorem mem_siftUpF : ∀ (f : Nat) (a : List Entry) (i : Nat) (e : Entry)
    (x : Entry), i < a.length → x ∈ siftUpF f a i e → x ∈ a ∨ x = e := by
  intro f
  induction f with
  | zero =>
    intro a i e x hi hx
    rw [siftUpF] at hx
    exact List.mem_or_eq_of_mem_set hx
  | succ f ih =>
    intro a i e x hi hx
    simp only [siftUpF] at hx
    by_cases hi0 : i = 0
    · rw [if_pos hi0] at hx
      exact List.mem_or_eq_of_mem_set hx
    · rw [if_neg hi0] at hx
      by_cases hc : (a.getD ((i - 1) / 2) default).d ≤ e.d
      · rw [if_pos hc] at hx
        exact List.mem_or_eq_of_mem_set hx
      · rw [if_neg hc] at hx
        have hplen : (i - 1) / 2 < (a.set i (a.getD ((i - 1) / 2) default)).length := by
          rw [List.length_set]
          omega
        rcases ih _ _ e x hplen hx with hx2 | hx2
        · rcases List.mem_or_eq_of_mem_set hx2 with hx3 | hx3
          · exact Or.inl hx3
          · left
            rw [hx3, getD_eq_getElem (by omega : (i - 1) / 2 < a.length)]
            apply List.getElem_mem
        · exact Or.inr hx2

theorem mem_hPush {a : List Entry} {e x : Entry} (hx : x ∈ hPush a e) :
    x ∈ a ∨ x = e := by
  unfold hPush at hx
  rcases mem_siftUpF a.length (a ++ [e]) a.length e x (by simp) hx with hx2 | hx2
  · rcases List.mem_append.mp hx2 with hx3 | hx3
    · exact Or.inl hx3
    · simp only [List.mem_singleton] at hx3
      exact Or.inr hx3
  · exact Or.inr hx2

theorem hPush_length (a : List Entry) (e : Entry) :
    (hPush a e).length = a.length + 1 := by
  unfold hPush siftUp
  rw [siftUp_length]
  simp

theorem cInitFold_pq :
    ∀ (l : List (Nat × Nat)) (st : EState),
      ((l.foldl cInitStep st).pq.length = st.pq.length + l.length)
      ∧ (∀ x ∈ (l.foldl cInitStep st).pq,
          x ∈ st.pq ∨ (x.d = 0 ∧ x.v ∈ l.map Prod.fst)) := by
  intro l
  induction l with
  | nil => intro st; exact ⟨rfl, fun x hx => Or.inl hx⟩
  | cons sd l ih =>
    intro st
    simp only [List.foldl_cons]
    obtain ⟨ihl, ihm⟩ := ih (cInitStep st sd)
    constructor
    · rw [ihl]
      unfold cInitStep
      dsimp only
      rw [hPush_length]
      simp only [List.length_cons]
      omega
    · intro x hx
      rcases ihm x hx with hx2 | ⟨hx2, hx3⟩
      · unfold cInitStep at hx2
        dsimp only at hx2
        rcases mem_hPush hx2 with hx3 | hx3
        · exact Or.inl hx3
        · refine Or.inr ⟨by rw [hx3], ?_⟩
          rw [hx3]
          exact List.mem_cons_self _ _
      · exact Or.inr ⟨hx2, List.mem_cons_of_mem _ hx3⟩

theorem cInit_dist_src :
    ∀ (l : List (Nat × Nat)) (st : EState) (s : Nat), s ∈ l.map Prod.fst →
      (l.foldl cInitStep st).dist s = 0 := by
  intro l
  induction l with
  | nil => intro st s hs; exact absurd hs (List.not_mem_nil s)
  | cons sd l ih =>
    intro st s hs
    simp only [List.foldl_cons]
    rcases List.mem_cons.mp hs with hs | hs
    · rcases cInitFold_dist l (cInitStep st sd) s with h | h
      · rw [h]
        unfold cInitStep
        dsimp only
        rw [if_pos hs]
      · exact h
    · exact ih _ s hs

theorem cInitFold_ghost :
    ∀ (l : List (Nat × Nat)) (st : EState),
      (l.foldl cInitStep st).settled = st.settled
      ∧ (l.foldl cInitStep st).popTrace = st.popTrace
      ∧ (l.foldl cInitStep st).bPrime = st.bPrime := by
  intro l
  induction l with
  | nil => intro st; exact ⟨rfl, rfl, rfl⟩
  | cons sd l ih =>
    intro st
    simp only [List.foldl_cons]
    have h1 := ih (cInitStep st sd)
    exact ⟨h1.1.trans rfl, h1.2.1.trans rfl, h1.2.2.trans rfl⟩

/-- C8 (amended): in the C implementation, which assigns distance `0` to
every source and pushes it regardless of `B`, a run with `B = 0` over any
graph and any non-empty source set pops a source entry with `d = 0`, which
passes the staleness check, immediately satisfies `d >= B`, sets
`bprime = 0`, and finishes with settled count `0`.  (The C++ implementation
does not behave this way: with `B = 0` no source is pushed, nothing is
popped and `bprime` stays at the sentinel — see the counterexample.) -/
theorem C8_theorem {g : Graph} {srcs : List (Nat × Nat)} (hne : srcs ≠ [])
    (fuel : Nat) :
    ∃ st, cRun g 0 (fuel + 1) (cInit srcs) = some st
      ∧ st.bPrime = 0 ∧ st.settled = []
      ∧ ∃ s ∈ srcs.map Prod.fst, st.popTrace = [⟨0, s⟩] := by
  obtain ⟨hlen, hmem⟩ := cInitFold_pq srcs emptyState
  have hlen2 : (cInit srcs).pq.length = srcs.length := by
    unfold cInit
    rw [hlen]
    simp [emptyState]
  rcases hpq : (cInit srcs).pq with _ | ⟨top, r⟩
  · exfalso
    rw [hpq] at hlen2
    simp only [List.length_nil] at hlen2
    exact hne (List.length_eq_zero.mp hlen2.symm)
  · have htop : top ∈ (cInit srcs).pq := by
      rw [hpq]
      exact List.mem_cons_self top r
    have htop2 : top.d = 0 ∧ top.v ∈ srcs.map Prod.fst := by
      rcases hmem top htop with h | h
      · exact absurd h (List.not_mem_nil top)
      · exact h
    have hdist : (cInit srcs).dist top.v = 0 :=
      cInit_dist_src srcs emptyState top.v htop2.2
    have hpop : hPop (cInit srcs).pq = some (top,
        if (top :: r).dropLast.isEmpty = true then []
        else siftDown (top :: r).dropLast 0 ((top :: r).getLastD default)) := by
      rw [hpq]
      rfl
    refine ⟨{ (cInit srcs) with
        pq := if (top :: r).dropLast.isEmpty = true then []
              else siftDown (top :: r).dropLast 0 ((top :: r).getLastD default),
        popTrace := (cInit srcs).popTrace ++ [top],
        bPrime := top.d,
        freshDs := (cInit srcs).freshDs ++ [top.d] }, ?_, ?_, ?_, ?_⟩
    · simp only [cRun, hpop]
      rw [if_neg (show ¬ top.d ≠ (cInit srcs).dist top.v by
            rw [hdist, htop2.1]
            exact fun hc => hc rfl),
        if_pos (Nat.zero_le top.d)]
    · exact htop2.1
    · exact (cInitFold_ghost srcs emptyState).1
    · refine ⟨top.v, htop2.2, ?_⟩
      have hgp : (cInit srcs).popTrace = [] :=
        (cInitFold_ghost srcs emptyState).2.1
      have ht : top = Entry.mk 0 top.v := by
        obtain ⟨d, v⟩ := top
        simp only [Entry.mk.injEq]
        exact ⟨htop2.1, trivial⟩
      show (cInit srcs).popTrace ++ [top] = [⟨0, top.v⟩]
      rw [hgp, List.nil_append, ht]

/-- Witness for C8 at a concrete input: the C engine on the two-node graph
with source `(0, 0)` and `B = 0`. -/
theorem C8_witness :
    ∃ st, cRun exLine 0 (0 + 1) (cInit [(0, 0)]) = some st
      ∧ st.bPrime = 0 ∧ st.settled = []
      ∧ ∃ s ∈ [(0, 0)].map Prod.fst, st.popTrace = [⟨0, s⟩] :=
  @C8_theorem exLine [(0, 0)] (by simp) 0

theorem getDg_eq_getElem {α : Type} {l : List α} {j : Nat} (d : α)
    (h : j < l.length) : l.getD j d = l[j] := by
  simp [List.getD, List.getElem?_eq_getElem h]

theorem getD_setG_self {α : Type} {l : List α} {i : Nat} (v d : α)
    (h : i < l.length) : (l.set i v).getD i d = v := by
  simp [List.getD, List.getElem?_set, h]

theorem getD_setG_ne {α : Type} {l : List α} {i j : Nat} (v d : α)
    (h : i ≠ j) : (l.set i v).getD j d = l.getD j d := by
  simp [List.getD, List.getElem?_set, h]

theorem from_adj_headD (adj : List (List Edge)) (u : Nat)
    (hu : u ≤ adj.length) :
    (from_adj adj).head.getD u 0 = ((adj.take u).map List.length).sum := by
  unfold from_adj
  dsimp only
  rw [getDg_eq_getElem 0 (by simp; omega)]
  simp

theorem take_succ_sum (adj : List (List Edge)) (u : Nat) (hu : u < adj.length) :
    ((adj.take (u + 1)).map List.length).sum
      = ((adj.take u).map List.length).sum + (adj.getD u []).length := by
  rw [List.map_take, List.map_take,
    List.sum_take_succ _ u (by simpa using hu)]
  congr 1
  rw [List.getElem_map, getDg_eq_getElem ([] : List Edge) hu]

theorem flatten_take_length (adj : List (List Edge)) (u : Nat) :
    ((adj.take u).flatten).length = ((adj.take u).map List.length).sum := by
  simp [List.length_flatten]

theorem outEdges_from_adj (adj : List (List Edge)) (u : Nat)
    (hu : u < adj.length) :
    outEdges (from_adj adj) u = adj.getD u [] := by
  unfold outEdges
  rw [from_adj_headD adj u (Nat.le_of_lt hu), from_adj_headD adj (u + 1) (by omega),
    take_succ_sum adj u hu]
  have h2 : ((adj.take u).map List.length).sum + (adj.getD u []).length
      - ((adj.take u).map List.length).sum = (adj.getD u []).length := by omega
  rw [h2]
  have hsplit : (from_adj adj).edges = (adj.take u).flatten ++ (adj.drop u).flatten := by
    show adj.flatten = _
    rw [← List.flatten_append, List.take_append_drop]
  rw [hsplit]
  rw [← flatten_take_length adj u, List.drop_left]
  have hdrop : adj.drop u = adj[u] :: adj.drop (u + 1) :=
    List.drop_eq_getElem_cons hu
  rw [hdrop]
  simp only [List.flatten_cons]
  rw [getDg_eq_getElem ([] : List Edge) hu, List.take_left]

theorem mem_cond_singleton {c : Prop} [Decidable c] {t w : Nat} {e : Edge}
    (h : e ∈ (if c then [Edge.mk t w] else [])) : e.w = w := by
  split at h
  · simp only [List.mem_singleton] at h
    rw [h]
  · exact absurd h (List.not_mem_nil e)

theorem gridAdjAt_pos (rows cols maxw : Nat) (wOf : Nat → Nat → Nat)
    (u : Nat) : ∀ e ∈ gridAdjAt rows cols maxw wOf u, 0 < e.w := by
  intro e he
  simp only [gridAdjAt, List.mem_append] at he
  rcases he with ((h | h) | h) | h <;> rw [mem_cond_singleton h] <;> omega

theorem make_grid_pos (rows cols maxw : Nat) (wOf : Nat → Nat → Nat) :
    ∀ e ∈ (make_grid rows cols maxw wOf).edges, 0 < e.w := by
  intro e he
  unfold make_grid from_adj at he
  dsimp only at he
  rw [List.mem_flatten] at he
  obtain ⟨l, hl, hel⟩ := he
  obtain ⟨u, _, hu⟩ := List.mem_map.mp hl
  rw [← hu] at hel
  exact gridAdjAt_pos rows cols maxw wOf u e hel

theorem make_er_pos (n maxw : Nat) (coin : Nat → Nat → Bool)
    (wOf : Nat → Nat → Nat) :
    ∀ e ∈ (make_er n maxw coin wOf).edges, 0 < e.w := by
  intro e he
  unfold make_er from_adj at he
  dsimp only at he
  rw [List.mem_flatten] at he
  obtain ⟨l, hl, hel⟩ := he
  obtain ⟨u, _, hu⟩ := List.mem_map.mp hl
  rw [← hu] at hel
  obtain ⟨v, _, hv⟩ := List.mem_filterMap.mp hel
  split at hv
  · obtain rfl := Option.some.inj hv
    simp only
    omega
  · exact absurd hv (by simp)

theorem baAttachNode_pos (mEach maxw : Nat) (pick wOf : Nat → Nat → Nat)
    (u : Nat) :
    ∀ (l : List Nat) (acc : List Edge × List Nat),
      (∀ e ∈ acc.1, 0 < e.w) →
      ∀ e ∈ (l.foldl
        (fun acc j =>
          let t := if acc.2.isEmpty then (if u = 0 then 0 else pick u j % u)
                   else acc.2.getD (pick u j % acc.2.length) 0
          (acc.1 ++ [Edge.mk t (wOf u j % maxw + 1)], acc.2 ++ [t, u]))
        acc).1, 0 < e.w := by
  intro l
  induction l with
  | nil => intro acc hacc e he; exact hacc e he
  | cons j l ih =>
    intro acc hacc e he
    simp only [List.foldl_cons] at he
    refine ih _ ?_ e he
    intro e2 he2
    rcases List.mem_append.mp he2 with h | h
    · exact hacc e2 h
    · simp only [List.mem_singleton] at h
      rw [h]
      simp only
      omega

theorem make_ba_pos (n m0 mEach maxw : Nat) (pick wOf : Nat → Nat → Nat) :
    ∀ e ∈ (make_ba n m0 mEach maxw pick wOf).edges, 0 < e.w := by
  intro e he
  unfold make_ba from_adj at he
  dsimp only at he
  rw [List.mem_flatten] at he
  obtain ⟨l, hl, hel⟩ := he
  rcases List.mem_append.mp hl with hl | hl
  · obtain ⟨u, _, hu⟩ := List.mem_map.mp hl
    rw [← hu] at hel
    obtain ⟨v, _, hv⟩ := List.mem_filterMap.mp hel
    split at hv
    · obtain rfl := Option.some.inj hv
      simp only
      omega
    · exact absurd hv (by simp)
  · -- l comes from the attachment fold
    have hfold : ∀ (ks : List Nat)
        (acc : List (List Edge) × List Nat),
        (∀ l2 ∈ acc.1, ∀ e2 ∈ l2, 0 < e2.w) →
        ∀ l2 ∈ (ks.foldl
          (fun (acc : List (List Edge) × List Nat) k =>
            let u := min (max m0 1) n + k
            let r := baAttachNode mEach maxw pick wOf u acc.2
            (acc.1 ++ [r.1], r.2))
          acc).1, ∀ e2 ∈ l2, 0 < e2.w := by
      intro ks
      induction ks with
      | nil => intro acc hacc l2 hl2 e2 he2; exact hacc l2 hl2 e2 he2
      | cons k ks ih =>
        intro acc hacc l2 hl2 e2 he2
        simp only [List.foldl_cons] at hl2
        refine ih _ ?_ l2 hl2 e2 he2
        intro l3 hl3 e3 he3
        rcases List.mem_append.mp hl3 with h | h
        · exact hacc l3 h e3 he3
        · simp only [List.mem_singleton] at h
          subst h
          exact baAttachNode_pos mEach maxw pick wOf _ _ _
            (fun e4 he4 => absurd he4 (List.not_mem_nil e4)) e3 he3
    exact hfold _ _ (fun l2 hl2 => absurd hl2 (List.not_mem_nil l2)) l hl e hel

theorem fixHeadsGo_facts :
    ∀ (l : List Nat) (prev : Nat),
      List.Chain' (fun a b => a ≤ b) (fixHeadsGo prev l)
      ∧ ∀ y ∈ fixHeadsGo prev l, prev ≤ y := by
  intro l
  induction l with
  | nil =>
    intro prev
    exact ⟨List.chain'_nil, fun y hy => absurd hy (List.not_mem_nil y)⟩
  | cons x xs ih =>
    intro prev
    simp only [fixHeadsGo]
    constructor
    · rw [List.chain'_cons']
      refine ⟨?_, (ih (max prev x)).1⟩
      intro b hb
      exact (ih (max prev x)).2 b (List.mem_of_mem_head? hb)
    · intro y hy
      rcases List.mem_cons.mp hy with hy | hy
      · subst hy
        exact Nat.le_max_left prev x
      · exact Nat.le_trans (Nat.le_max_left prev x) ((ih (max prev x)).2 y hy)

theorem fixHeads_chain (l : List Nat) :
    List.Chain' (fun a b => a ≤ b) (fixHeads l) := by
  cases l with
  | nil => exact List.chain'_nil
  | cons x xs =>
    simp only [fixHeads]
    rw [List.chain'_cons']
    refine ⟨?_, (fixHeadsGo_facts xs x).1⟩
    intro b hb
    exact (fixHeadsGo_facts xs x).2 b (List.mem_of_mem_head? hb)

theorem fixHeads_first (l : List Nat) (hne : l ≠ []) :
    (fixHeads l).getD 0 0 = l.getD 0 0 := by
  cases l with
  | nil => exact absurd rfl hne
  | cons x xs => rfl

theorem cLoaderHeads_facts (n : Nat) (recs : List (Nat × Nat × Nat)) :
    (cLoaderHeads n recs).getD 0 0 = 0
    ∧ (cLoaderHeads n recs).length = n + 1 := by
  unfold cLoaderHeads
  have hgen : ∀ (l : List (Nat × Nat × Nat)) (acc : List Nat × Nat),
      acc.1.getD 0 0 = 0 → acc.1.length = n + 1 →
      ((l.foldl
        (fun (acc : List Nat × Nat) t =>
          let m' := acc.2 + 1
          (if t.1 + 1 ≤ n ∧ acc.1.getD (t.1 + 1) 0 < m' then acc.1.set (t.1 + 1) m'
           else acc.1, m'))
        acc).1.getD 0 0 = 0
      ∧ (l.foldl
        (fun (acc : List Nat × Nat) t =>
          let m' := acc.2 + 1
          (if t.1 + 1 ≤ n ∧ acc.1.getD (t.1 + 1) 0 < m' then acc.1.set (t.1 + 1) m'
           else acc.1, m'))
        acc).1.length = n + 1) := by
    intro l
    induction l with
    | nil => intro acc h1 h2; exact ⟨h1, h2⟩
    | cons t l ih =>
      intro acc h1 h2
      simp only [List.foldl_cons]
      refine ih _ ?_ ?_
      · dsimp only
        split
        · rw [getD_setG_ne _ _ (by omega : t.1 + 1 ≠ 0)]
          exact h1
        · exact h1
      · dsimp only
        split
        · rw [List.length_set]
          exact h2
        · exact h2
  refine hgen recs (List.replicate (n + 1) 0, 0) ?_ (by simp)
  rw [getDg_eq_getElem 0 (by simp)]
  simp

/-- C6 (amended): every CSR structure assembled by `from_adj` — which is how
all three generators and the C++ loader build graphs — has `offsets[0] = 0`,
non-decreasing offsets, `offsets[n]` equal to the edge count, and node `u`'s
block equal to exactly its adjacency list; every generator weight is
`rand()%maxw + 1 > 0`; the C++ external loader groups exactly the in-range
records of each source node, but does not enforce positive weights; the C
loader guarantees only `offsets[0] = 0` and non-decreasing offsets (its
`offsets[n]` and grouping guarantees fail on unsorted or out-of-range
input — see the counterexample). -/
theorem C6_theorem :
    (∀ adj : List (List Edge),
        (from_adj adj).head.getD 0 0 = 0
        ∧ (∀ u, u < adj.length →
            (from_adj adj).head.getD u 0 ≤ (from_adj adj).head.getD (u + 1) 0)
        ∧ (from_adj adj).head.getD adj.length 0 = (from_adj adj).edges.length
        ∧ ∀ u, u < adj.length → outEdges (from_adj adj) u = adj.getD u [])
    ∧ (∀ rows cols maxw wOf, ∀ e ∈ (make_grid rows cols maxw wOf).edges, 0 < e.w)
    ∧ (∀ n maxw coin wOf, ∀ e ∈ (make_er n maxw coin wOf).edges, 0 < e.w)
    ∧ (∀ n m0 mEach maxw pick wOf,
        ∀ e ∈ (make_ba n m0 mEach maxw pick wOf).edges, 0 < e.w)
    ∧ (∀ n elist u, u < n →
        outEdges (from_edge_list n elist) u
          = elist.filterMap (fun t =>
              if t.1 = u ∧ t.2.1 < n then some (Edge.mk t.2.1 t.2.2) else none))
    ∧ (∀ n recs,
        (read_graph_file n recs).head.getD 0 0 = 0
        ∧ List.Chain' (fun a b => a ≤ b) (read_graph_file n recs).head) := by
  refine ⟨?_, make_grid_pos, make_er_pos, make_ba_pos, ?_, ?_⟩
  · intro adj
    refine ⟨?_, ?_, ?_, outEdges_from_adj adj⟩
    · rw [from_adj_headD adj 0 (Nat.zero_le _)]
      simp
    · intro u hu
      rw [from_adj_headD adj u (Nat.le_of_lt hu),
        from_adj_headD adj (u + 1) (by omega), take_succ_sum adj u hu]
      omega
    · rw [from_adj_headD adj adj.length (Nat.le_refl _), List.take_length]
      show _ = adj.flatten.length
      simp [List.length_flatten]
  · intro n elist u hu
    rw [show from_edge_list n elist
        = from_adj ((List.range n).map (fun u =>
            elist.filterMap (fun t =>
              if t.1 = u ∧ t.2.1 < n then some (Edge.mk t.2.1 t.2.2) else none)))
      from rfl]
    rw [outEdges_from_adj _ u (by simp [hu])]
    rw [getDg_eq_getElem ([] : List Edge) (by simp [hu])]
    simp [hu]
  · intro n recs
    constructor
    · show (fixHeads (cLoaderHeads n recs)).getD 0 0 = 0
      rw [fixHeads_first _ (by
          intro hc
          have := (cLoaderHeads_facts n recs).2
          rw [hc] at this
          simp at this)]
      exact (cLoaderHeads_facts n recs).1
    · exact fixHeads_chain (cLoaderHeads n recs)

theorem C6_witness :
    (0 < 1 ∧ outEdges (from_adj [[Edge.mk 1 5]]) 0 = [Edge.mk 1 5])
    ∧ (0 < 2 ∧ outEdges (from_edge_list 2 [(0, 1, 5), (1, 0, 7)]) 0 = [Edge.mk 1 5])
    ∧ (read_graph_file 2 [(1, 0, 1), (0, 1, 1)]).head.getD 0 0 = 0 := by
  refine ⟨⟨by decide, ?_⟩, ⟨by decide, ?_⟩, ?_⟩
  · have h := (C6_theorem.1 [[Edge.mk 1 5]]).2.2.2 0 (by decide)
    simpa using h
  · have h := C6_theorem.2.2.2.2.1 2 [(0, 1, 5), (1, 0, 7)] 0 (by decide)
    rw [h]
    rfl
  · exact (C6_theorem.2.2.2.2.2 2 [(1, 0, 1), (0, 1, 1)]).1
